import Mathlib

/-!
Verification of the skip-list engine of the `liwnn/skiplist` Go package
(canonical variant: configurable max level, free list, ranges and a
seek-capable iterator).

Shallow embedding notes.  A Go skip list is a header node plus a chain of
heap-allocated nodes; lane `i` (the `forward[i]` pointers) links exactly the
nodes whose forward array is longer than `i`.  The embedding represents the
bottom lane explicitly as a list of nodes in pointer order and *derives* the
higher lanes from each node's forward-array length (`Node.lvl`):

* position `0` is the header, position `p ≥ 1` is `nodes[p-1]`;
* `x.forward[i]` (for `x` at position `p`) is `fwd s p i`: the next position
  after `p` whose node participates in lane `i`.

The pointer splices performed by `Insert` (`x.forward[i], prev[i].forward[i] =
prev[i].forward[i], x` for `i < lvl`) put the new node immediately before the
first lane-`i` node whose item is not less than the new item, on every lane it
joins; on a well-formed (sorted) list these positions coincide with the
bottom-lane insertion point, so the splice is represented by inserting the node
into the list at that point.  `Delete` unsplices the found node from every lane
`i` with `prev[i].forward[i] == x` (breaking at the first mismatch); on a
well-formed list the mismatch happens exactly at lane `x.lvl`, i.e. the node is
removed from all of its lanes, which is represented by deleting it from the
list.  Go slice lengths/capacities are carried as `Nat`s, machine integers as
`Nat`/`Int`, `nil` interface values and pointers as `Option`, and a call that
would dereference `nil` (panic) as `none`.
-/

namespace SkipListVerif

def DefaultMaxLevel : Nat := 32

def DefaultFreeListSize : Nat := 32

/-- The client comparison contract (`Item.Less`): a strict weak order, given
by irreflexivity, transitivity and transitivity of non-lessness. -/
structure IsSWO {α : Type} (lt : α → α → Bool) : Prop where
  irrefl : ∀ a, lt a a = false
  lt_trans : ∀ a b c, lt a b = true → lt b c = true → lt a c = true
  nlt_trans : ∀ a b c, lt a b = false → lt b c = false → lt a c = false

/-- One element of the skip list (Go `node`): its item, the length of its
forward array (`lvl = len(n.forward)`, the number of lanes it joins) and the
capacity of the forward array's backing storage (`fcap = cap(n.forward)`).
The forward pointers themselves are derived from `lvl` (see module comment). -/
structure Node (α : Type) where
  item : α
  lvl : Nat
  fcap : Nat
deriving DecidableEq

/-- A raw node as handled by the free list: possibly-nil item, explicit
forward slots (the visible slice) and the backing capacity.  Entries of the
backing array beyond the slice length are always `nil` in every program state
(`freeNode` clears the whole slice before pooling and fresh arrays are
zeroed), so growing a slice within its capacity exposes `none` entries. -/
structure PNode (α : Type) where
  item : Option α
  forward : List (Option Nat)
  fcap : Nat
deriving DecidableEq

/-- Go `FreeList`: a pool of recycled nodes.  `cap` is the capacity of the
`freelist` slice, fixed by `NewFreeList` (append never exceeds it). -/
structure FreeList (α : Type) where
  pool : List (PNode α)
  cap : Nat
deriving DecidableEq

def NewFreeList (α : Type) (size : Nat) : FreeList α := ⟨[], size⟩

/-- Go `FreeList.newNode(lvl)`: pop the most recently freed node if the pool
is non-empty and resize its forward array to `lvl` (reusing the backing
storage when its capacity suffices, reallocating otherwise); with an empty
pool allocate a fresh node with a `lvl`-length forward array. -/
def FreeList.newNode {α : Type} (f : FreeList α) (lvl : Nat) : FreeList α × PNode α :=
  match f.pool.getLast? with
  | none => (f, ⟨none, List.replicate lvl none, lvl⟩)
  | some n =>
    let n' : PNode α :=
      if n.fcap < lvl then ⟨n.item, List.replicate lvl none, lvl⟩
      else ⟨n.item, (n.forward ++ List.replicate (lvl - n.forward.length) none).take lvl, n.fcap⟩
    (⟨f.pool.dropLast, f.cap⟩, n')

/-- Go `FreeList.freeNode(n)`: if the pool is below capacity, clear the node's
item and every forward slot and append it, returning `true`; otherwise return
`false` and abandon the node. -/
def FreeList.freeNode {α : Type} (f : FreeList α) (n : PNode α) : FreeList α × Bool :=
  if f.pool.length < f.cap then
    (⟨f.pool ++ [⟨none, List.replicate n.forward.length none, n.fcap⟩], f.cap⟩, true)
  else (f, false)

/-- Go `SkipList`: the nodes in bottom-lane (pointer) order, the configured
maximum level, the current maximum occupied level, the free list and the
stored-item counter.  The header is implicit (position `0`). -/
structure SkipList (α : Type) where
  nodes : List (Node α)
  maxLevel : Nat
  level : Nat
  freelist : FreeList α
  length : Nat
deriving DecidableEq

/-- Helper for `fwd`: first position at or after the head of `l` (which sits
at position `q`) whose node joins lane `i`. -/
def fwdFrom {α : Type} (i : Nat) : List (Node α) → Nat → Option Nat
  | [], _ => none
  | n :: ns, q => if i < n.lvl then some q else fwdFrom i ns (q + 1)

/-- The derived forward pointer: `fwd s p i` is `x.forward[i]` for the node
at position `p` (`p = 0` being the header), i.e. the next position after `p`
participating in lane `i`, or `none` (`nil`). -/
def fwd {α : Type} (s : SkipList α) (p i : Nat) : Option Nat :=
  fwdFrom i (s.nodes.drop p) (p + 1)

/-- The inner loop of the descent, on lane `i`:
`for y := x.forward[i]; y != nil && y.item.Less(key); y = x.forward[i] { x = y }`.
The suffix list holds the nodes after the current position `x`; `q` is the
position of its head.  Nodes not on lane `i` are skipped (they are not seen by
`x.forward[i]`), lane-`i` nodes with items less than `key` advance `x`, and
the first lane-`i` node with an item not less than `key` stops the loop. -/
def walkFrom {α : Type} (lt : α → α → Bool) (key : α) (i : Nat) :
    List (Node α) → Nat → Nat → Nat
  | [], _, x => x
  | n :: ns, q, x =>
    if i < n.lvl then
      if lt n.item key then walkFrom lt key i ns (q + 1) q else x
    else walkFrom lt key i ns (q + 1) x

/-- One lane of the descent, starting at position `p`. -/
def walk {α : Type} (s : SkipList α) (lt : α → α → Bool) (key : α) (i p : Nat) : Nat :=
  walkFrom lt key i (s.nodes.drop p) (p + 1) p

/-- The outer loop of the descent:
`for i := sl.level - 1; i >= 0; i--`, carrying the cursor `x` down the lanes.
`descend s lt key k p` runs lanes `k-1, k-2, …, 0` from position `p`. -/
def descend {α : Type} (s : SkipList α) (lt : α → α → Bool) (key : α) :
    Nat → Nat → Nat
  | 0, p => p
  | i + 1, p => descend s lt key i (walk s lt key i p)

/-- Go `SkipList.searchNode(key)`: full descent from the header, then
`x.forward[0]` — the first node whose item is not less than `key`. -/
def searchNode {α : Type} (s : SkipList α) (lt : α → α → Bool) (key : α) : Option Nat :=
  fwd s (descend s lt key s.level 0) 0

/-- Go `SkipList.Search(key)`: descent, then return the next item if it exists
and `key` is not less than it (the two are mutually non-less), else `nil`. -/
def Search {α : Type} (s : SkipList α) (lt : α → α → Bool) (key : α) : Option α :=
  match fwd s (descend s lt key s.level 0) 0 with
  | none => none
  | some q =>
    match s.nodes[q - 1]? with
    | none => none
    | some n => if lt key n.item then none else some n.item

/-- The items currently stored, in bottom-lane order. -/
def itemsOf {α : Type} (s : SkipList α) : List α := s.nodes.map (·.item)

/-- The nodes participating in lane `i`, in lane order. -/
def laneNodes {α : Type} (s : SkipList α) (i : Nat) : List (Node α) :=
  s.nodes.filter (fun n => decide (i < n.lvl))

/-- The splice part of Go `Insert` (the `else` branch): extend the current
level if the drawn level exceeds it (`prev[i] = sl.header` for the newly
exposed lanes), acquire a node from the free list, link it into lanes
`0 … lvl-1` right after `prev[i]` — which on a well-formed list is the
bottom-lane position `x` reached by the descent — and increment `length`. -/
def insNew {α : Type} (s : SkipList α) (it : α) (lvl : Nat) (x : Nat) : SkipList α :=
  let level' := if s.level < lvl then lvl else s.level
  let fl := s.freelist.newNode lvl
  { nodes := s.nodes.take x ++ ⟨it, lvl, fl.2.fcap⟩ :: s.nodes.drop x,
    maxLevel := s.maxLevel, level := level', freelist := fl.1, length := s.length + 1 }

/-- Go `SkipList.Insert(item)` after the nil-item guard: descend recording
predecessors, then either overwrite the equal item in place (update branch,
`x.item = item`) or splice in a fresh node of the drawn level `lvl`. -/
def insertG {α : Type} (s : SkipList α) (lt : α → α → Bool) (it : α) (lvl : Nat) :
    SkipList α :=
  let x := descend s lt it s.level 0
  match fwd s x 0 with
  | none => insNew s it lvl x
  | some q =>
    match s.nodes[q - 1]? with
    | none => insNew s it lvl x
    | some n =>
      if lt it n.item then insNew s it lvl x
      else { s with nodes := s.nodes.set (q - 1) ⟨it, n.lvl, n.fcap⟩ }

/-- The level-shrinking loop of Go `Delete`:
`for sl.level > 1 && sl.header.forward[sl.level-1] == nil { sl.level-- }`;
the header's lane-`i` pointer is `nil` exactly when no node joins lane `i`. -/
def shrinkLevel {α : Type} (nodes : List (Node α)) : Nat → Nat
  | 0 => 0
  | 1 => 1
  | l + 2 =>
    if nodes.all (fun n => decide (n.lvl ≤ l + 1)) then shrinkLevel nodes (l + 1)
    else l + 2

/-- Go `SkipList.Delete(item)`: descend recording predecessors; if the next
bottom-lane node exists and is mutually non-less with `item`, unsplice it from
every lane whose predecessor points at it (on a well-formed list: exactly its
own lanes, so the node leaves the list), shrink the level, return the node to
the free list, decrement `length` and return `true`; otherwise return `false`
without mutating anything. -/
def deleteG {α : Type} (s : SkipList α) (lt : α → α → Bool) (it : α) :
    SkipList α × Bool :=
  let x := descend s lt it s.level 0
  match fwd s x 0 with
  | none => (s, false)
  | some q =>
    match s.nodes[q - 1]? with
    | none => (s, false)
    | some n =>
      if lt it n.item then (s, false)
      else
        let nodes' := s.nodes.take (q - 1) ++ s.nodes.drop q
        let fl := s.freelist.freeNode ⟨some n.item, List.replicate n.lvl none, n.fcap⟩
        ({ nodes := nodes', maxLevel := s.maxLevel, level := shrinkLevel nodes' s.level,
           freelist := fl.1, length := s.length - 1 }, true)

/-- One random draw of `randomLevel`: the Go test
`float32(random.Uint32()&0xFFFF) < DefaultP*0xFFFF` with `DefaultP = 0.25`.
Every integer below `2^24` converts to `float32` exactly and
`0.25*0xFFFF = 16383.75` is exactly representable, so the float comparison
holds iff the low 16 bits of the draw are at most `16383`, i.e. below
`16384` — exactly a quarter of the `65536` possible values. -/
def rlDraw (v : Nat) : Bool := decide (v % 65536 < 16384)

/-- Helper for `randomLevel`; the fuel argument only bounds the recursion and
never binds, since the loop stops at `lvl = ml` and the fuel starts at `ml`. -/
def randomLevelGo (ml : Nat) (u : Nat → Nat) : Nat → Nat → Nat → Nat
  | 0, lvl, _ => lvl
  | k + 1, lvl, i =>
    if lvl < ml ∧ rlDraw (u i) = true then randomLevelGo ml u k (lvl + 1) (i + 1)
    else lvl

/-- Go `SkipList.randomLevel()` reading its successive `Uint32` draws from the
stream `u`: start at 1 and increment while the level is below `maxLevel` and
the draw succeeds. -/
def randomLevel (ml : Nat) (u : Nat → Nat) : Nat :=
  randomLevelGo ml u ml 1 0

/-- Go `NewWithLevel(maxLevel int32)`: panics (`none`) unless
`1 ≤ maxLevel ≤ DefaultMaxLevel`; otherwise an empty list at level 1 with a
fresh free list of the default capacity. -/
def NewWithLevel (α : Type) (ml : Int) : Option (SkipList α) :=
  if ml < 1 ∨ (DefaultMaxLevel : Int) < ml then none
  else some { nodes := [], maxLevel := ml.toNat, level := 1,
              freelist := NewFreeList α DefaultFreeListSize, length := 0 }

/-- Go `New()`. -/
def NewSkipList (α : Type) : Option (SkipList α) := NewWithLevel α (DefaultMaxLevel : Int)

/-- Go `SkipList.Insert`'s public entry, nil-item guard included: a `nil`
item panics (`none`); the level for the non-update branch is drawn by
`randomLevel` from the stream `u`. -/
def InsertOp {α : Type} (s : SkipList α) (lt : α → α → Bool) (item : Option α)
    (u : Nat → Nat) : Option (SkipList α) :=
  match item with
  | none => none
  | some it => some (insertG s lt it (randomLevel s.maxLevel u))

/-- Go `Iterator`: the owning list is passed explicitly to the operations;
`x` is the current node (`none` = `nil`). -/
structure IteratorM where
  x : Option Nat
deriving DecidableEq

/-- Go `SkipList.NewIterator()`: starts at `sl.header.forward[0]`. -/
def NewIterator {α : Type} (s : SkipList α) : IteratorM := ⟨fwd s 0 0⟩

/-- Go `Iterator.Valid()`. -/
def IteratorM.Valid (it : IteratorM) : Bool := it.x.isSome

/-- Go `Iterator.Next()` (`it.x = it.x.forward[0]`): dereferences the current
node, so it panics (`none`) when the iterator is invalid. -/
def NextOp {α : Type} (s : SkipList α) (it : IteratorM) : Option IteratorM :=
  match it.x with
  | none => none
  | some p => some ⟨fwd s p 0⟩

/-- Go `Iterator.Value()`: dereferences the current node, so it panics
(`none`) when the iterator is invalid. -/
def ValueOp {α : Type} (s : SkipList α) (it : IteratorM) : Option α :=
  match it.x with
  | none => none
  | some p => (s.nodes[p - 1]?).map (·.item)

/-- Go `Iterator.MoveTo(item)`: reset-and-redescend to the first node whose
item is not less than `item`. -/
def MoveTo {α : Type} (s : SkipList α) (lt : α → α → Bool) (_it : IteratorM) (key : α) :
    IteratorM :=
  ⟨searchNode s lt key⟩

/-- Go `Range`: the first node of the window and the node after its last one
(`end`; `none` = `nil`). -/
structure RangeM where
  begin : Option Nat
  stop : Option Nat
deriving DecidableEq

/-- Go `SkipList.NewRange(begin, end)`: empty range (`Range{}`) when the list
is empty or `end` is less than `begin`; otherwise the descent result for
`begin` (clamped to the first node when `begin` precedes everything) and the
descent result for `end`, moved one node forward when it equals `end` (the
window is inclusive) or clamped to the first node when `end` precedes
everything. -/
def NewRange {α : Type} (s : SkipList α) (lt : α → α → Bool) (b e : α) : RangeM :=
  match fwd s 0 0 with
  | none => ⟨none, none⟩
  | some m =>
    if lt e b then ⟨none, none⟩
    else
      match s.nodes[m - 1]? with
      | none => ⟨none, none⟩
      | some mn =>
        let beginNode : Option Nat :=
          match searchNode s lt b with
          | none => if lt b mn.item then some m else none
          | some p => some p
        let nend : Option Nat :=
          match searchNode s lt e with
          | none => if lt e mn.item then some m else none
          | some p =>
            match s.nodes[p - 1]? with
            | none => some p
            | some pn => if lt e pn.item then some p else fwd s p 0
        ⟨beginNode, nend⟩

/-- The cursor loop shared by `Range.ForEach`
(`for x := r.begin; x != r.end; x = x.forward[0] { f(x.item) }`) and by
iterating `NewIterator`/`Next` while `Valid` (which is the same loop with a
`nil` stop).  Collects the visited items; a `nil` dereference (possible only
for ranges no `NewRange` call produces) stops the collection where Go would
panic.  The fuel exceeds the node count, so it never binds. -/
def forEachAux {α : Type} (s : SkipList α) (stop : Option Nat) :
    Option Nat → Nat → List α
  | _, 0 => []
  | x, fuel + 1 =>
    if x = stop then []
    else
      match x with
      | none => []
      | some p =>
        match s.nodes[p - 1]? with
        | none => []
        | some n => n.item :: forEachAux s stop (fwd s p 0) fuel

/-- Go `Range.ForEach(f)`, collecting the visited items in order. -/
def ForEach {α : Type} (s : SkipList α) (r : RangeM) : List α :=
  forEachAux s r.stop r.begin (s.nodes.length + 1)

/-- The items yielded by a fresh iterator advanced while valid. -/
def iterateAll {α : Type} (s : SkipList α) : List α :=
  forEachAux s none (NewIterator s).x (s.nodes.length + 1)

/-- Executable check that consecutive node items are strictly ascending. -/
def chainB {α : Type} (lt : α → α → Bool) : List (Node α) → Bool
  | [] => true
  | [_] => true
  | a :: b :: t => lt a.item b.item && chainB lt (b :: t)

/-- Well-formedness of a skip-list state: sorted distinct items, node levels
between 1 and the current level, current level between 1 and `maxLevel`,
level 1 when empty, top lane occupied when non-empty, and an accurate
`length` counter.  All states reachable from a fresh list satisfy it. -/
def WF {α : Type} (lt : α → α → Bool) (s : SkipList α) : Prop :=
  chainB lt s.nodes = true ∧
  (∀ n ∈ s.nodes, 1 ≤ n.lvl ∧ n.lvl ≤ s.level) ∧
  1 ≤ s.level ∧ s.level ≤ s.maxLevel ∧
  (s.nodes = [] → s.level = 1) ∧
  (s.nodes ≠ [] → ∃ n ∈ s.nodes, s.level - 1 < n.lvl) ∧
  s.length = s.nodes.length

instance {α : Type} [DecidableEq α] (lt : α → α → Bool) (s : SkipList α) :
    Decidable (WF lt s) :=
  inferInstanceAs (Decidable (_ ∧ _ ∧ _ ∧ _ ∧ _ ∧ _ ∧ _))

/-- The states reachable from a freshly constructed list by `Insert` and
`Delete` calls; each insertion draws its level from an arbitrary stream of
`Uint32` values. -/
inductive Reachable {α : Type} (lt : α → α → Bool) : SkipList α → Prop
  | base (ml : Int) (s : SkipList α) : NewWithLevel α ml = some s → Reachable lt s
  | ins (s : SkipList α) (it : α) (u : Nat → Nat) : Reachable lt s →
      Reachable lt (insertG s lt it (randomLevel s.maxLevel u))
  | del (s : SkipList α) (it : α) : Reachable lt s →
      Reachable lt (deleteG s lt it).1

/-- The number of stored nodes whose item is less than `key`; on a sorted
list these form a prefix, and the descent of Go `Search` / `Insert` / `Delete`
lands exactly at this bottom-lane position. -/
def prefLen {α : Type} (lt : α → α → Bool) (key : α) (l : List (Node α)) : Nat :=
  (l.takeWhile (fun n => lt n.item key)).length

/-- The number of leading stored nodes whose item is not greater than `key`
(i.e. `key` is not less than the item); on a sorted list the exclusive stop
position computed by `NewRange` for the upper bound `e` is position
`prefGe lt e nodes + 1` (or `nil` when every node qualifies). -/
def prefGe {α : Type} (lt : α → α → Bool) (key : α) (l : List (Node α)) : Nat :=
  (l.takeWhile (fun n => !(lt key n.item))).length

/-- The comparison of the package's `Int` example item type. -/
def intLt (a b : Int) : Bool := decide (a < b)

/-- A freshly constructed list with max level 4, used as a concrete state. -/
def sEmpty4 : SkipList Int :=
  { nodes := [], maxLevel := 4, level := 1, freelist := ⟨[], 32⟩, length := 0 }

/-- A concrete two-element well-formed list storing 1 and 3. -/
def sTwo : SkipList Int :=
  { nodes := [⟨1, 1, 1⟩, ⟨3, 2, 2⟩], maxLevel := 4, level := 2,
    freelist := ⟨[], 32⟩, length := 2 }

theorem intLt_swo : IsSWO intLt := by
  refine ⟨fun a => ?_, fun a b c hab hbc => ?_, fun a b c hab hbc => ?_⟩ <;>
    simp only [intLt, decide_eq_true_eq, decide_eq_false_iff_not] at * <;> omega

theorem chainB_iff_chain' {α : Type} (lt : α → α → Bool) :
    ∀ l : List (Node α),
      chainB lt l = true ↔ List.Chain' (fun a b => lt a.item b.item = true) l
  | [] => by simp [chainB]
  | [a] => by simp [chainB]
  | a :: b :: t => by
    rw [chainB, Bool.and_eq_true, chainB_iff_chain' lt (b :: t), List.chain'_cons]

theorem exists_getElem {β : Type} (l : List β) (i : Nat) (h : i < l.length) :
    ∃ x, l[i]? = some x := by
  refine ⟨l.get ⟨i, h⟩, ?_⟩
  rw [List.getElem?_eq_some_iff]
  exact ⟨h, rfl⟩

theorem twLen_le {β : Type} (f : β → Bool) :
    ∀ l : List β, (l.takeWhile f).length ≤ l.length
  | [] => by simp
  | a :: t => by
    by_cases h : f a = true
    · simpa [List.takeWhile_cons, h] using twLen_le f t
    · simp [List.takeWhile_cons, h]

theorem tw_get_true {β : Type} (f : β → Bool) :
    ∀ (l : List β) (r : Nat) (b : β), r < (l.takeWhile f).length →
      l[r]? = some b → f b = true
  | [], r, b => by simp
  | a :: t, r, b => by
    by_cases h : f a = true
    · cases r with
      | zero =>
        intro _ hg
        rw [List.getElem?_cons_zero, Option.some_inj] at hg
        exact hg ▸ h
      | succ r =>
        intro hr hg
        rw [List.takeWhile_cons, if_pos h, List.length_cons] at hr
        rw [List.getElem?_cons_succ] at hg
        exact tw_get_true f t r b (by omega) hg
    · intro hr
      rw [List.takeWhile_cons, if_neg h] at hr
      simp at hr

theorem tw_boundary {β : Type} (f : β → Bool) :
    ∀ (l : List β) (b : β), l[(l.takeWhile f).length]? = some b → f b = false
  | [], b => by simp
  | a :: t, b => by
    by_cases h : f a = true
    · rw [List.takeWhile_cons, if_pos h, List.length_cons, List.getElem?_cons_succ]
      exact tw_boundary f t b
    · rw [List.takeWhile_cons, if_neg h, List.length_nil, List.getElem?_cons_zero,
        Option.some_inj]
      intro hb
      exact hb ▸ (Bool.not_eq_true _).mp h

theorem tw_ge {β : Type} (f : β → Bool) :
    ∀ (l : List β) (k : Nat), k ≤ l.length →
      (∀ r b, r < k → l[r]? = some b → f b = true) → k ≤ (l.takeWhile f).length
  | _, 0, _, _ => Nat.zero_le _
  | [], k + 1, hk, _ => by simp at hk
  | a :: t, k + 1, hk, hall => by
    have ha : f a = true := hall 0 a (Nat.succ_pos _) List.getElem?_cons_zero
    rw [List.takeWhile_cons, if_pos ha, List.length_cons, Nat.succ_le_succ_iff]
    exact tw_ge f t k (by simpa using hk)
      (fun r b hr hg => hall (r + 1) b (by omega) (by simpa using hg))

theorem tw_mono {β : Type} (f g : β → Bool) (hfg : ∀ b, f b = true → g b = true) :
    ∀ l : List β, (l.takeWhile f).length ≤ (l.takeWhile g).length
  | [] => Nat.le_refl _
  | a :: t => by
    by_cases h : f a = true
    · rw [List.takeWhile_cons, if_pos h, List.takeWhile_cons, if_pos (hfg a h),
        List.length_cons, List.length_cons, Nat.succ_le_succ_iff]
      exact tw_mono f g hfg t
    · rw [List.takeWhile_cons, if_neg h]
      simp

theorem take_tw {β : Type} (f : β → Bool) :
    ∀ l : List β, l.take (l.takeWhile f).length = l.takeWhile f
  | [] => by simp
  | a :: t => by
    by_cases h : f a = true
    · rw [List.takeWhile_cons, if_pos h, List.length_cons, List.take_succ_cons,
        take_tw f t]
    · rw [List.takeWhile_cons, if_neg h]
      simp

theorem drop_tw {β : Type} (f : β → Bool) (l : List β) :
    l.drop (l.takeWhile f).length = l.dropWhile f := by
  have h := List.takeWhile_append_dropWhile (p := f) (l := l)
  calc l.drop (l.takeWhile f).length
      = (l.takeWhile f ++ l.dropWhile f).drop (l.takeWhile f).length := by rw [h]
    _ = l.dropWhile f := List.drop_left _ _

theorem chain'_rel {β : Type} {R : β → β → Prop}
    (htr : ∀ a b c, R a b → R b c → R a c) {l : List β}
    (hc : List.Chain' R l) :
    ∀ (r r' : Nat) (x y : β), r < r' → l[r]? = some x → l[r']? = some y → R x y := by
  haveI : IsTrans β R := ⟨fun a b c hab hbc => htr _ _ _ hab hbc⟩
  rw [List.chain'_iff_pairwise, List.pairwise_iff_getElem] at hc
  intro r r' x y hrr hg hg'
  obtain ⟨h1, e1⟩ := List.getElem?_eq_some_iff.mp hg
  obtain ⟨h2, e2⟩ := List.getElem?_eq_some_iff.mp hg'
  exact e1 ▸ e2 ▸ hc r r' h1 h2 hrr

theorem chain_get_lt {α : Type} {lt : α → α → Bool}
    (htr : ∀ a b c, lt a b = true → lt b c = true → lt a c = true)
    {l : List (Node α)} (hc : List.Chain' (fun a b => lt a.item b.item = true) l) :
    ∀ (r r' : Nat) (n n' : Node α), r < r' → l[r]? = some n → l[r']? = some n' →
      lt n.item n'.item = true :=
  chain'_rel (R := fun a b : Node α => lt a.item b.item = true)
    (fun a b c hab hbc => htr a.item b.item c.item hab hbc) hc

theorem fwdFrom_some {α : Type} (i : Nat) :
    ∀ (l : List (Node α)) (q r : Nat), fwdFrom i l q = some r →
      q ≤ r ∧ r < q + l.length ∧ ∃ n, l[r - q]? = some n ∧ i < n.lvl
  | [], q, r => by simp [fwdFrom]
  | m :: ns, q, r => by
    rw [fwdFrom]
    by_cases h : i < m.lvl
    · rw [if_pos h, Option.some_inj]
      intro he
      subst he
      exact ⟨Nat.le_refl _, by simp, m, by simp, h⟩
    · rw [if_neg h]
      intro hrec
      obtain ⟨h1, h2, n, hg, hn⟩ := fwdFrom_some i ns (q + 1) r hrec
      refine ⟨by omega, by simp; omega, n, ?_, hn⟩
      have harith : r - q = (r - (q + 1)) + 1 := by omega
      rw [harith, List.getElem?_cons_succ]
      exact hg

theorem fwdFrom_none {α : Type} (i : Nat) :
    ∀ (l : List (Node α)) (q : Nat), fwdFrom i l q = none ↔ ∀ n ∈ l, n.lvl ≤ i
  | [], q => by simp [fwdFrom]
  | m :: ns, q => by
    rw [fwdFrom]
    by_cases h : i < m.lvl
    · simp only [if_pos h]
      simp only [List.mem_cons]
      constructor
      · intro habs
        exact absurd habs (by simp)
      · intro hall
        exact absurd (hall m (Or.inl rfl)) (by omega)
    · rw [if_neg h, fwdFrom_none i ns (q + 1)]
      simp only [List.mem_cons]
      constructor
      · intro hall n hn
        rcases hn with hn | hn
        · subst hn; omega
        · exact hall n hn
      · intro hall n hn
        exact hall n (Or.inr hn)

theorem fwd_some {α : Type} (s : SkipList α) (p i q : Nat) (h : fwd s p i = some q) :
    p < q ∧ q ≤ s.nodes.length ∧ ∃ n, s.nodes[q - 1]? = some n ∧ i < n.lvl := by
  by_cases hp : p ≤ s.nodes.length
  · unfold fwd at h
    obtain ⟨h1, h2, n, hg, hn⟩ := fwdFrom_some i _ _ _ h
    rw [List.length_drop] at h2
    refine ⟨by omega, by omega, n, ?_, hn⟩
    rw [List.getElem?_drop] at hg
    have harith : p + (q - (p + 1)) = q - 1 := by omega
    rw [harith] at hg
    exact hg
  · exfalso
    unfold fwd at h
    rw [List.drop_eq_nil_of_le (by omega)] at h
    simp [fwdFrom] at h

theorem fwd_none_iff {α : Type} (s : SkipList α) (p i : Nat) :
    fwd s p i = none ↔ ∀ n ∈ s.nodes.drop p, n.lvl ≤ i :=
  fwdFrom_none i _ _

theorem fwd_zero {α : Type} {s : SkipList α} (hlv : ∀ n ∈ s.nodes, 1 ≤ n.lvl)
    (p : Nat) :
    fwd s p 0 = if p < s.nodes.length then some (p + 1) else none := by
  by_cases hp : p < s.nodes.length
  · have hd : s.nodes.drop p = s.nodes[p] :: s.nodes.drop (p + 1) :=
      List.drop_eq_getElem_cons hp
    have hmem : s.nodes[p] ∈ s.nodes := List.getElem_mem hp
    unfold fwd
    rw [hd, fwdFrom, if_pos (show 0 < (s.nodes[p]).lvl by have := hlv _ hmem; omega),
      if_pos hp]
  · unfold fwd
    rw [List.drop_eq_nil_of_le (by omega), if_neg hp]
    simp [fwdFrom]

theorem drop_head_facts {α : Type} {s : SkipList α} {n : Node α} {ns : List (Node α)}
    {q : Nat} (hq : 1 ≤ q) (hl : n :: ns = s.nodes.drop (q - 1)) :
    s.nodes[q - 1]? = some n ∧ ns = s.nodes.drop q := by
  constructor
  · have h0 : (s.nodes.drop (q - 1))[0]? = some n := by rw [← hl]; simp
    rw [List.getElem?_drop] at h0
    simpa using h0
  · have ht : (s.nodes.drop (q - 1)).tail = s.nodes.drop q := by
      rw [List.tail_drop]
      congr 1
      omega
    rw [← hl] at ht
    simpa using ht

theorem pred_iff_lt_pref {α : Type} {lt : α → α → Bool} {key : α}
    {l : List (Node α)}
    (htr : ∀ a b c, lt a b = true → lt b c = true → lt a c = true)
    (hc : List.Chain' (fun a b => lt a.item b.item = true) l)
    {r : Nat} {n : Node α} (hg : l[r]? = some n) :
    lt n.item key = true ↔ r < prefLen lt key l := by
  constructor
  · intro hlt
    by_contra hge
    rw [Nat.not_lt] at hge
    have hrlen : r < l.length := (List.getElem?_eq_some_iff.mp hg).1
    have hLlen : prefLen lt key l < l.length := by omega
    obtain ⟨nL, hgL⟩ : ∃ nL, l[prefLen lt key l]? = some nL :=
      exists_getElem l (prefLen lt key l) hLlen
    have hfL : lt nL.item key = false := tw_boundary _ l nL hgL
    rcases Nat.eq_or_lt_of_le hge with heq | hlt2
    · rw [← heq] at hg
      rw [hg, Option.some_inj] at hgL
      rw [← hgL] at hfL
      simp [hlt] at hfL
    · have h1 := chain_get_lt htr hc _ _ _ _ hlt2 hgL hg
      have h2 := htr _ _ _ h1 hlt
      simp [h2] at hfL
  · intro hr
    exact tw_get_true _ l r n hr hg

theorem walkFrom_le {α : Type} {lt : α → α → Bool} {key : α} {s : SkipList α}
    (htr : ∀ a b c, lt a b = true → lt b c = true → lt a c = true)
    (hc : List.Chain' (fun a b => lt a.item b.item = true) s.nodes) (i : Nat) :
    ∀ (l : List (Node α)) (q x : Nat), l = s.nodes.drop (q - 1) → 1 ≤ q →
      x ≤ prefLen lt key s.nodes →
      walkFrom lt key i l q x ≤ prefLen lt key s.nodes
  | [], _, x, _, _, hx => hx
  | n :: ns, q, x, hl, hq, hx => by
    obtain ⟨hg, hns⟩ := drop_head_facts hq hl
    rw [walkFrom]
    by_cases hlane : i < n.lvl
    · rw [if_pos hlane]
      by_cases hlt : lt n.item key = true
      · rw [if_pos hlt]
        have hqL : q - 1 < prefLen lt key s.nodes := (pred_iff_lt_pref htr hc hg).mp hlt
        exact walkFrom_le htr hc i ns (q + 1) q (by simpa using hns) (by omega) (by omega)
      · rw [if_neg hlt]
        exact hx
    · rw [if_neg hlane]
      exact walkFrom_le htr hc i ns (q + 1) x (by simpa using hns) (by omega) hx

theorem walk_le {α : Type} {lt : α → α → Bool} {key : α} {s : SkipList α}
    (htr : ∀ a b c, lt a b = true → lt b c = true → lt a c = true)
    (hc : List.Chain' (fun a b => lt a.item b.item = true) s.nodes) (i p : Nat)
    (hp : p ≤ prefLen lt key s.nodes) :
    walk s lt key i p ≤ prefLen lt key s.nodes :=
  walkFrom_le htr hc i (s.nodes.drop p) (p + 1) p (by simp) (by omega) hp

theorem walkFrom_zero_eq {α : Type} {lt : α → α → Bool} {key : α} {s : SkipList α}
    (hlv : ∀ n ∈ s.nodes, 1 ≤ n.lvl)
    (htr : ∀ a b c, lt a b = true → lt b c = true → lt a c = true)
    (hc : List.Chain' (fun a b => lt a.item b.item = true) s.nodes) :
    ∀ (l : List (Node α)) (q : Nat), l = s.nodes.drop (q - 1) → 1 ≤ q →
      q - 1 ≤ prefLen lt key s.nodes →
      walkFrom lt key 0 l q (q - 1) = prefLen lt key s.nodes
  | [], q, hl, _, hqL => by
    have hlen : s.nodes.length - (q - 1) = 0 := by
      have := congrArg List.length hl
      simpa using this.symm
    have hL := twLen_le (fun n : Node α => lt n.item key) s.nodes
    rw [walkFrom]
    unfold prefLen at *
    omega
  | n :: ns, q, hl, hq, hqL => by
    obtain ⟨hg, hns⟩ := drop_head_facts hq hl
    have hmem : n ∈ s.nodes := List.getElem?_mem hg
    rw [walkFrom, if_pos (show 0 < n.lvl by have := hlv n hmem; omega)]
    by_cases hlt : lt n.item key = true
    · rw [if_pos hlt]
      have hqlt : q - 1 < prefLen lt key s.nodes := (pred_iff_lt_pref htr hc hg).mp hlt
      have hrec := @walkFrom_zero_eq α lt key s hlv htr hc ns (q + 1)
        (by simpa using hns) (by omega) (by omega)
      simpa using hrec
    · rw [if_neg hlt]
      have hnlt : ¬ q - 1 < prefLen lt key s.nodes := by
        intro habs
        exact hlt ((pred_iff_lt_pref htr hc hg).mpr habs)
      omega

theorem walk_zero_eq {α : Type} {lt : α → α → Bool} {key : α} {s : SkipList α}
    (hlv : ∀ n ∈ s.nodes, 1 ≤ n.lvl)
    (htr : ∀ a b c, lt a b = true → lt b c = true → lt a c = true)
    (hc : List.Chain' (fun a b => lt a.item b.item = true) s.nodes) (p : Nat)
    (hp : p ≤ prefLen lt key s.nodes) :
    walk s lt key 0 p = prefLen lt key s.nodes :=
  walkFrom_zero_eq hlv htr hc (s.nodes.drop p) (p + 1) (by simp) (by omega) (by simpa)

theorem descend_eq {α : Type} {lt : α → α → Bool} {key : α} {s : SkipList α}
    (hlv : ∀ n ∈ s.nodes, 1 ≤ n.lvl)
    (htr : ∀ a b c, lt a b = true → lt b c = true → lt a c = true)
    (hc : List.Chain' (fun a b => lt a.item b.item = true) s.nodes)
    (k p : Nat) (hk : 1 ≤ k) (hp : p ≤ prefLen lt key s.nodes) :
    descend s lt key k p = prefLen lt key s.nodes := by
  induction k generalizing p with
  | zero => omega
  | succ k ih =>
    rw [descend]
    rcases Nat.eq_zero_or_pos k with hk0 | hk0
    · subst hk0
      rw [descend]
      exact walk_zero_eq hlv htr hc p hp
    · exact ih (walk s lt key k p) hk0 (walk_le htr hc k p hp)

theorem descend_from_zero {α : Type} {lt : α → α → Bool} {key : α} {s : SkipList α}
    (hlv : ∀ n ∈ s.nodes, 1 ≤ n.lvl)
    (htr : ∀ a b c, lt a b = true → lt b c = true → lt a c = true)
    (hc : List.Chain' (fun a b => lt a.item b.item = true) s.nodes)
    (hlevel : 1 ≤ s.level) :
    descend s lt key s.level 0 = prefLen lt key s.nodes :=
  descend_eq hlv htr hc s.level 0 hlevel (Nat.zero_le _)

theorem searchNode_eq {α : Type} {lt : α → α → Bool} {key : α} {s : SkipList α}
    (hlv : ∀ n ∈ s.nodes, 1 ≤ n.lvl)
    (htr : ∀ a b c, lt a b = true → lt b c = true → lt a c = true)
    (hc : List.Chain' (fun a b => lt a.item b.item = true) s.nodes)
    (hlevel : 1 ≤ s.level) :
    searchNode s lt key =
      if prefLen lt key s.nodes < s.nodes.length then some (prefLen lt key s.nodes + 1)
      else none := by
  unfold searchNode
  rw [descend_from_zero hlv htr hc hlevel, fwd_zero hlv]

theorem wf_chain {α : Type} {lt : α → α → Bool} {s : SkipList α} (h : WF lt s) :
    List.Chain' (fun a b => lt a.item b.item = true) s.nodes :=
  (chainB_iff_chain' lt s.nodes).mp h.1

theorem wf_lvl_pos {α : Type} {lt : α → α → Bool} {s : SkipList α} (h : WF lt s) :
    ∀ n ∈ s.nodes, 1 ≤ n.lvl :=
  fun n hn => (h.2.1 n hn).1

theorem wf_lvl_le {α : Type} {lt : α → α → Bool} {s : SkipList α} (h : WF lt s) :
    ∀ n ∈ s.nodes, n.lvl ≤ s.level :=
  fun n hn => (h.2.1 n hn).2

theorem wf_level_pos {α : Type} {lt : α → α → Bool} {s : SkipList α} (h : WF lt s) :
    1 ≤ s.level := h.2.2.1

theorem wf_level_le {α : Type} {lt : α → α → Bool} {s : SkipList α} (h : WF lt s) :
    s.level ≤ s.maxLevel := h.2.2.2.1

theorem wf_empty_level {α : Type} {lt : α → α → Bool} {s : SkipList α} (h : WF lt s) :
    s.nodes = [] → s.level = 1 := h.2.2.2.2.1

theorem wf_top_occ {α : Type} {lt : α → α → Bool} {s : SkipList α} (h : WF lt s) :
    s.nodes ≠ [] → ∃ n ∈ s.nodes, s.level - 1 < n.lvl := h.2.2.2.2.2.1

theorem wf_len {α : Type} {lt : α → α → Bool} {s : SkipList α} (h : WF lt s) :
    s.length = s.nodes.length := h.2.2.2.2.2.2

theorem set_eq_take_cons_drop {β : Type} :
    ∀ (l : List β) (k : Nat) (v : β), k < l.length →
      l.set k v = l.take k ++ v :: l.drop (k + 1)
  | [], k, v => by simp
  | a :: t, 0, v => by simp
  | a :: t, k + 1, v => by
    intro hk
    rw [List.set_cons_succ, List.take_succ_cons, List.drop_succ_cons, List.cons_append]
    rw [set_eq_take_cons_drop t k v (by simpa using hk)]

theorem chain_decomp {β : Type} {R : β → β → Prop} {l : List β}
    (hc : List.Chain' R l) (k : Nat) :
    List.Chain' R (l.take k) ∧ List.Chain' R (l.drop k) ∧
      ∀ x ∈ (l.take k).getLast?, ∀ y ∈ (l.drop k).head?, R x y := by
  apply List.chain'_append.mp
  rw [List.take_append_drop]
  exact hc

theorem getLast?_take_pos {β : Type} {l : List β} {k : Nat} (hk0 : 0 < k)
    (hk : k ≤ l.length) :
    (l.take k).getLast? = l[k - 1]? := by
  rw [List.getLast?_eq_getElem?, List.length_take]
  have hmin : min k l.length - 1 = k - 1 := by omega
  rw [hmin, List.getElem?_take, if_pos (by omega)]

theorem head?_drop_eq {β : Type} (l : List β) (k : Nat) : (l.drop k).head? = l[k]? := by
  rw [List.head?_eq_getElem?, List.getElem?_drop, Nat.add_zero]

theorem chain_insert {β : Type} {R : β → β → Prop} {l : List β}
    (hc : List.Chain' R l) {k : Nat} (hk : k ≤ l.length) {v : β}
    (hleft : ∀ x, l[k - 1]? = some x → 0 < k → R x v)
    (hright : ∀ y, l[k]? = some y → R v y) :
    List.Chain' R (l.take k ++ v :: l.drop k) := by
  obtain ⟨h1, h2, _⟩ := chain_decomp hc k
  rw [List.chain'_append]
  refine ⟨h1, ?_, ?_⟩
  · rw [List.chain'_cons']
    refine ⟨fun y hy => ?_, h2⟩
    rw [Option.mem_def, head?_drop_eq] at hy
    exact hright y hy
  · intro x hx y hy
    rw [Option.mem_def, List.head?_cons, Option.some_inj] at hy
    subst hy
    by_cases hk0 : 0 < k
    · rw [Option.mem_def, getLast?_take_pos hk0 hk] at hx
      exact hleft x hx hk0
    · exfalso
      have hz : k = 0 := by omega
      subst hz
      simp at hx

theorem chain_set {β : Type} {R : β → β → Prop} {l : List β}
    (hc : List.Chain' R l) {k : Nat} (hk : k < l.length) {v : β}
    (hleft : ∀ x, l[k - 1]? = some x → 0 < k → R x v)
    (hright : ∀ y, l[k + 1]? = some y → R v y) :
    List.Chain' R (l.set k v) := by
  rw [set_eq_take_cons_drop l k v hk]
  obtain ⟨_, h2, _⟩ := chain_decomp hc (k + 1)
  rw [List.chain'_append]
  refine ⟨(chain_decomp hc k).1, ?_, ?_⟩
  · rw [List.chain'_cons']
    refine ⟨fun y hy => ?_, h2⟩
    rw [Option.mem_def, head?_drop_eq] at hy
    exact hright y hy
  · intro x hx y hy
    rw [Option.mem_def, List.head?_cons, Option.some_inj] at hy
    subst hy
    by_cases hk0 : 0 < k
    · rw [Option.mem_def, getLast?_take_pos hk0 (by omega)] at hx
      exact hleft x hx hk0
    · exfalso
      have hz : k = 0 := by omega
      subst hz
      simp at hx

theorem chain_erase {β : Type} {R : β → β → Prop} {l : List β}
    (hc : List.Chain' R l) (htr : ∀ a b c, R a b → R b c → R a c) {k : Nat}
    (hk : k < l.length) :
    List.Chain' R (l.take k ++ l.drop (k + 1)) := by
  rw [List.chain'_append]
  refine ⟨(chain_decomp hc k).1, (chain_decomp hc (k + 1)).2.1, ?_⟩
  intro x hx y hy
  by_cases hk0 : 0 < k
  · rw [Option.mem_def, getLast?_take_pos hk0 (by omega)] at hx
    rw [Option.mem_def, head?_drop_eq] at hy
    exact chain'_rel htr hc (k - 1) (k + 1) x y (by omega) hx hy
  · exfalso
    have hz : k = 0 := by omega
    subst hz
    simp at hx

theorem shrink_le {α : Type} (nodes : List (Node α)) :
    ∀ k, shrinkLevel nodes k ≤ k
  | 0 => Nat.le_refl _
  | 1 => Nat.le_refl _
  | l + 2 => by
    rw [shrinkLevel]
    by_cases h : nodes.all (fun n => decide (n.lvl ≤ l + 1)) = true
    · rw [if_pos h]
      exact Nat.le_trans (shrink_le nodes (l + 1)) (by omega)
    · rw [if_neg h]

theorem shrink_pos {α : Type} (nodes : List (Node α)) :
    ∀ k, 1 ≤ k → 1 ≤ shrinkLevel nodes k
  | 1, _ => Nat.le_refl _
  | l + 2, _ => by
    rw [shrinkLevel]
    by_cases h : nodes.all (fun n => decide (n.lvl ≤ l + 1)) = true
    · rw [if_pos h]
      exact shrink_pos nodes (l + 1) (by omega)
    · rw [if_neg h]
      omega

theorem shrink_lvl_le {α : Type} (nodes : List (Node α)) :
    ∀ k, (∀ n ∈ nodes, n.lvl ≤ k) → ∀ n ∈ nodes, n.lvl ≤ shrinkLevel nodes k
  | 0, h => h
  | 1, h => h
  | l + 2, h => by
    rw [shrinkLevel]
    by_cases hall : nodes.all (fun n => decide (n.lvl ≤ l + 1)) = true
    · rw [if_pos hall]
      refine shrink_lvl_le nodes (l + 1) ?_
      intro n hn
      have := (List.all_eq_true.mp hall) n hn
      simpa using this
    · rw [if_neg hall]
      exact h

theorem shrink_top_occ {α : Type} (nodes : List (Node α)) :
    ∀ k, 1 ≤ k → (∀ n ∈ nodes, 1 ≤ n.lvl) → nodes ≠ [] →
      ∃ n ∈ nodes, shrinkLevel nodes k - 1 < n.lvl
  | 1, _, hlv, hne => by
    rw [shrinkLevel]
    match nodes, hne with
    | n :: ns, _ =>
      exact ⟨n, List.mem_cons_self n ns, by have := hlv n (List.mem_cons_self n ns); omega⟩
  | l + 2, _, hlv, hne => by
    rw [shrinkLevel]
    by_cases hall : nodes.all (fun n => decide (n.lvl ≤ l + 1)) = true
    · rw [if_pos hall]
      exact shrink_top_occ nodes (l + 1) (by omega) hlv hne
    · rw [if_neg hall]
      rw [Bool.not_eq_true, List.all_eq_false] at hall
      obtain ⟨n, hn, hlvl⟩ := hall
      exact ⟨n, hn, by simpa using hlvl⟩

theorem shrink_empty {α : Type} :
    ∀ k, 1 ≤ k → shrinkLevel ([] : List (Node α)) k = 1
  | 1, _ => rfl
  | l + 2, _ => by
    rw [shrinkLevel, if_pos (by simp)]
    exact shrink_empty (l + 1) (by omega)

theorem insertG_update {α : Type} {lt : α → α → Bool} {s : SkipList α} {it : α}
    {n : Node α} (hsw : IsSWO lt) (hwf : WF lt s) (lvl : Nat)
    (hg : s.nodes[prefLen lt it s.nodes]? = some n) (hne : lt it n.item = false) :
    insertG s lt it lvl =
      { s with nodes := s.nodes.set (prefLen lt it s.nodes) ⟨it, n.lvl, n.fcap⟩ } := by
  have hL : prefLen lt it s.nodes < s.nodes.length := (List.getElem?_eq_some_iff.mp hg).1
  simp only [insertG]
  rw [descend_from_zero (wf_lvl_pos hwf) hsw.lt_trans (wf_chain hwf) (wf_level_pos hwf),
    fwd_zero (wf_lvl_pos hwf), if_pos hL]
  simp only [Nat.add_sub_cancel]
  rw [hg]
  simp [hne]

theorem insertG_new_high {α : Type} {lt : α → α → Bool} {s : SkipList α} {it : α}
    (hsw : IsSWO lt) (hwf : WF lt s) (lvl : Nat)
    (hL : s.nodes.length ≤ prefLen lt it s.nodes) :
    insertG s lt it lvl = insNew s it lvl (prefLen lt it s.nodes) := by
  simp only [insertG]
  rw [descend_from_zero (wf_lvl_pos hwf) hsw.lt_trans (wf_chain hwf) (wf_level_pos hwf),
    fwd_zero (wf_lvl_pos hwf), if_neg (by omega)]

theorem insertG_new_lt {α : Type} {lt : α → α → Bool} {s : SkipList α} {it : α}
    {n : Node α} (hsw : IsSWO lt) (hwf : WF lt s) (lvl : Nat)
    (hg : s.nodes[prefLen lt it s.nodes]? = some n) (hlt : lt it n.item = true) :
    insertG s lt it lvl = insNew s it lvl (prefLen lt it s.nodes) := by
  have hL : prefLen lt it s.nodes < s.nodes.length := (List.getElem?_eq_some_iff.mp hg).1
  simp only [insertG]
  rw [descend_from_zero (wf_lvl_pos hwf) hsw.lt_trans (wf_chain hwf) (wf_level_pos hwf),
    fwd_zero (wf_lvl_pos hwf), if_pos hL]
  simp only [Nat.add_sub_cancel]
  rw [hg]
  simp [hlt]

theorem deleteG_found {α : Type} {lt : α → α → Bool} {s : SkipList α} {it : α}
    {n : Node α} (hsw : IsSWO lt) (hwf : WF lt s)
    (hg : s.nodes[prefLen lt it s.nodes]? = some n) (hne : lt it n.item = false) :
    deleteG s lt it =
      ({ nodes := s.nodes.take (prefLen lt it s.nodes) ++
            s.nodes.drop (prefLen lt it s.nodes + 1),
         maxLevel := s.maxLevel,
         level := shrinkLevel (s.nodes.take (prefLen lt it s.nodes) ++
            s.nodes.drop (prefLen lt it s.nodes + 1)) s.level,
         freelist := (s.freelist.freeNode ⟨some n.item, List.replicate n.lvl none,
            n.fcap⟩).1,
         length := s.length - 1 }, true) := by
  have hL : prefLen lt it s.nodes < s.nodes.length := (List.getElem?_eq_some_iff.mp hg).1
  simp only [deleteG]
  rw [descend_from_zero (wf_lvl_pos hwf) hsw.lt_trans (wf_chain hwf) (wf_level_pos hwf),
    fwd_zero (wf_lvl_pos hwf), if_pos hL]
  simp only [Nat.add_sub_cancel]
  rw [hg]
  simp [hne]

theorem deleteG_miss_high {α : Type} {lt : α → α → Bool} {s : SkipList α} {it : α}
    (hsw : IsSWO lt) (hwf : WF lt s)
    (hL : s.nodes.length ≤ prefLen lt it s.nodes) :
    deleteG s lt it = (s, false) := by
  simp only [deleteG]
  rw [descend_from_zero (wf_lvl_pos hwf) hsw.lt_trans (wf_chain hwf) (wf_level_pos hwf),
    fwd_zero (wf_lvl_pos hwf), if_neg (by omega)]

theorem deleteG_miss_lt {α : Type} {lt : α → α → Bool} {s : SkipList α} {it : α}
    {n : Node α} (hsw : IsSWO lt) (hwf : WF lt s)
    (hg : s.nodes[prefLen lt it s.nodes]? = some n) (hlt : lt it n.item = true) :
    deleteG s lt it = (s, false) := by
  have hL : prefLen lt it s.nodes < s.nodes.length := (List.getElem?_eq_some_iff.mp hg).1
  simp only [deleteG]
  rw [descend_from_zero (wf_lvl_pos hwf) hsw.lt_trans (wf_chain hwf) (wf_level_pos hwf),
    fwd_zero (wf_lvl_pos hwf), if_pos hL]
  simp only [Nat.add_sub_cancel]
  rw [hg]
  simp [hlt]

theorem equal_mem_iff {α : Type} {lt : α → α → Bool} {s : SkipList α} {it : α}
    (hsw : IsSWO lt) (hwf : WF lt s) :
    (∃ y ∈ itemsOf s, lt y it = false ∧ lt it y = false) ↔
      ∃ n, s.nodes[prefLen lt it s.nodes]? = some n ∧ lt it n.item = false := by
  constructor
  · rintro ⟨y, hy, hy1, hy2⟩
    rw [itemsOf, List.mem_map] at hy
    obtain ⟨nd, hnd, hyeq⟩ := hy
    obtain ⟨r, hr⟩ := List.mem_iff_getElem?.mp hnd
    subst hyeq
    have hrlen : r < s.nodes.length := (List.getElem?_eq_some_iff.mp hr).1
    have hnotlt : ¬ r < prefLen lt it s.nodes := by
      intro habs
      have := tw_get_true (fun n : Node α => lt n.item it) s.nodes r nd habs hr
      simp [this] at hy1
    rcases Nat.eq_or_lt_of_le (Nat.le_of_not_lt hnotlt) with heq | hlt2
    · exact ⟨nd, heq ▸ hr, hy2⟩
    · exfalso
      have hLlen : prefLen lt it s.nodes < s.nodes.length := by omega
      obtain ⟨nL, hgL⟩ : ∃ nL, s.nodes[prefLen lt it s.nodes]? = some nL :=
        exists_getElem s.nodes (prefLen lt it s.nodes) hLlen
      have hfL : lt nL.item it = false :=
        tw_boundary (fun n : Node α => lt n.item it) s.nodes nL hgL
      have hch := chain_get_lt hsw.lt_trans (wf_chain hwf) _ _ _ _ hlt2 hgL hr
      have := hsw.nlt_trans nL.item it nd.item hfL hy2
      simp [this] at hch
  · rintro ⟨n, hg, hne⟩
    have hfL : lt n.item it = false :=
      tw_boundary (fun m : Node α => lt m.item it) s.nodes n hg
    exact ⟨n.item, List.mem_map_of_mem _ (List.getElem?_mem hg), hfL, hne⟩

theorem no_equal_all {α : Type} {lt : α → α → Bool} {s : SkipList α} {it : α}
    (h : ¬ ∃ y ∈ itemsOf s, lt y it = false ∧ lt it y = false) :
    ∀ y ∈ itemsOf s, lt y it = true ∨ lt it y = true := by
  intro y hy
  by_contra hc
  push_neg at hc
  simp only [ne_eq, Bool.not_eq_true] at hc
  exact h ⟨y, hy, hc.1, hc.2⟩

theorem wf_insNew {α : Type} {lt : α → α → Bool} {s : SkipList α} {it : α}
    {lvl : Nat} (hsw : IsSWO lt) (hwf : WF lt s)
    (hl1 : 1 ≤ lvl) (hl2 : lvl ≤ s.maxLevel)
    (hright : ∀ y, s.nodes[prefLen lt it s.nodes]? = some y → lt it y.item = true) :
    WF lt (insNew s it lvl (prefLen lt it s.nodes)) := by
  have hpref : prefLen lt it s.nodes =
      (s.nodes.takeWhile (fun n : Node α => lt n.item it)).length := rfl
  have hLle : prefLen lt it s.nodes ≤ s.nodes.length :=
    twLen_le (fun n : Node α => lt n.item it) s.nodes
  simp only [insNew, WF]
  set L := prefLen lt it s.nodes with hLdef
  set v : Node α := ⟨it, lvl, (s.freelist.newNode lvl).2.fcap⟩ with hvdef
  have hvl : v.lvl = lvl := rfl
  have hmem_cases : ∀ m ∈ s.nodes.take L ++ v :: s.nodes.drop L,
      m = v ∨ m ∈ s.nodes := by
    intro m hm
    rcases List.mem_append.mp hm with hm | hm
    · exact Or.inr (List.take_subset _ _ hm)
    · rcases List.mem_cons.mp hm with hm | hm
      · exact Or.inl hm
      · exact Or.inr (List.drop_subset _ _ hm)
  have hold_mem : ∀ m ∈ s.nodes, m ∈ s.nodes.take L ++ v :: s.nodes.drop L := by
    intro m hm
    rw [← List.take_append_drop L s.nodes] at hm
    rcases List.mem_append.mp hm with hm | hm
    · exact List.mem_append_left _ hm
    · exact List.mem_append_right _ (List.mem_cons_of_mem _ hm)
  refine ⟨?_, ?_, ?_, ?_, ?_, ?_, ?_⟩
  · rw [chainB_iff_chain']
    refine chain_insert (wf_chain hwf) hLle ?_ ?_
    · intro x hx hk0
      exact tw_get_true (fun n : Node α => lt n.item it) s.nodes (L - 1) x
        (by omega) hx
    · intro y hy
      exact hright y hy
  · intro m hm
    rcases hmem_cases m hm with hm | hm
    · rw [hm]
      refine ⟨hl1, ?_⟩
      rw [hvl]
      by_cases hcmp : s.level < lvl <;> simp [hcmp] <;> omega
    · refine ⟨wf_lvl_pos hwf m hm, ?_⟩
      have := wf_lvl_le hwf m hm
      by_cases hcmp : s.level < lvl <;> simp [hcmp] <;> omega
  · have := wf_level_pos hwf
    by_cases hcmp : s.level < lvl <;> simp [hcmp] <;> omega
  · have := wf_level_le hwf
    by_cases hcmp : s.level < lvl <;> simp [hcmp] <;> omega
  · intro habs
    simp at habs
  · intro _
    by_cases hcmp : s.level < lvl
    · refine ⟨v, List.mem_append_right _ (List.mem_cons_self _ _), ?_⟩
      rw [hvl]
      simp [hcmp]
      omega
    · by_cases hemp : s.nodes = []
      · refine ⟨v, List.mem_append_right _ (List.mem_cons_self _ _), ?_⟩
        have h1 := wf_empty_level hwf hemp
        rw [hvl]
        simp [hcmp]
        omega
      · obtain ⟨m, hm, hml⟩ := wf_top_occ hwf hemp
        refine ⟨m, hold_mem m hm, ?_⟩
        simp [hcmp]
        omega
  · rw [wf_len hwf]
    simp
    omega

theorem wf_update {α : Type} {lt : α → α → Bool} {s : SkipList α} {it : α}
    {n : Node α} (hsw : IsSWO lt) (hwf : WF lt s)
    (hg : s.nodes[prefLen lt it s.nodes]? = some n) (hne : lt it n.item = false) :
    WF lt { s with
      nodes := s.nodes.set (prefLen lt it s.nodes) ⟨it, n.lvl, n.fcap⟩ } := by
  have hL : prefLen lt it s.nodes < s.nodes.length := (List.getElem?_eq_some_iff.mp hg).1
  have hfL : lt n.item it = false :=
    tw_boundary (fun m : Node α => lt m.item it) s.nodes n hg
  have hpref : prefLen lt it s.nodes =
      (s.nodes.takeWhile (fun m : Node α => lt m.item it)).length := rfl
  simp only [WF]
  set L := prefLen lt it s.nodes with hLdef
  set v : Node α := ⟨it, n.lvl, n.fcap⟩ with hvdef
  have hnmem : n ∈ s.nodes := List.getElem?_mem hg
  refine ⟨?_, ?_, ?_, ?_, ?_, ?_, ?_⟩
  · rw [chainB_iff_chain']
    refine chain_set (wf_chain hwf) hL ?_ ?_
    · intro x hx hk0
      exact tw_get_true (fun m : Node α => lt m.item it) s.nodes (L - 1) x
        (by omega) hx
    · intro y hy
      have hch := chain_get_lt hsw.lt_trans (wf_chain hwf) L (L + 1) n y
        (by omega) hg hy
      cases hb : lt it y.item with
      | true => rfl
      | false =>
        have := hsw.nlt_trans n.item it y.item hfL hb
        rw [this] at hch
        exact hch
  · intro m hm
    rcases List.mem_or_eq_of_mem_set hm with hm | hm
    · exact hwf.2.1 m hm
    · rw [hm, hvdef]
      exact hwf.2.1 n hnmem
  · exact wf_level_pos hwf
  · exact wf_level_le hwf
  · intro habs
    rw [List.set_eq_nil_iff] at habs
    rw [habs] at hg
    simp at hg
  · intro _
    obtain ⟨m, hm, hml⟩ := wf_top_occ hwf (by intro habs; rw [habs] at hg; simp at hg)
    obtain ⟨r, hr⟩ := List.mem_iff_getElem?.mp hm
    by_cases hrL : r = L
    · refine ⟨v, ?_, ?_⟩
      · exact List.getElem?_mem (List.getElem?_set_self (a := v) (by omega))
      · rw [hrL] at hr
        rw [hr, Option.some_inj] at hg
        rw [hvdef]
        simpa [hg] using hml
    · refine ⟨m, ?_, hml⟩
      refine List.getElem?_mem (l := s.nodes.set L v) (n := r) ?_
      rw [List.getElem?_set_ne (by omega)]
      exact hr
  · rw [wf_len hwf]
    simp

theorem wf_erase {α : Type} {lt : α → α → Bool} {s : SkipList α} {it : α}
    {n : Node α} (hsw : IsSWO lt) (hwf : WF lt s)
    (hg : s.nodes[prefLen lt it s.nodes]? = some n) :
    WF lt { nodes := s.nodes.take (prefLen lt it s.nodes) ++
              s.nodes.drop (prefLen lt it s.nodes + 1),
            maxLevel := s.maxLevel,
            level := shrinkLevel (s.nodes.take (prefLen lt it s.nodes) ++
              s.nodes.drop (prefLen lt it s.nodes + 1)) s.level,
            freelist := (s.freelist.freeNode ⟨some n.item, List.replicate n.lvl none,
              n.fcap⟩).1,
            length := s.length - 1 } := by
  have hL : prefLen lt it s.nodes < s.nodes.length := (List.getElem?_eq_some_iff.mp hg).1
  simp only [WF]
  set L := prefLen lt it s.nodes with hLdef
  set nodes' := s.nodes.take L ++ s.nodes.drop (L + 1) with hndef
  have hsub : ∀ m ∈ nodes', m ∈ s.nodes := by
    intro m hm
    rcases List.mem_append.mp hm with hm | hm
    · exact List.take_subset _ _ hm
    · exact List.drop_subset _ _ hm
  have hlvp : ∀ m ∈ nodes', 1 ≤ m.lvl := fun m hm => wf_lvl_pos hwf m (hsub m hm)
  have hlvle : ∀ m ∈ nodes', m.lvl ≤ s.level := fun m hm => wf_lvl_le hwf m (hsub m hm)
  refine ⟨?_, ?_, ?_, ?_, ?_, ?_, ?_⟩
  · rw [chainB_iff_chain']
    exact chain_erase (wf_chain hwf)
      (fun a b c hab hbc => hsw.lt_trans a.item b.item c.item hab hbc) hL
  · intro m hm
    exact ⟨hlvp m hm, shrink_lvl_le nodes' s.level hlvle m hm⟩
  · exact shrink_pos nodes' s.level (wf_level_pos hwf)
  · exact Nat.le_trans (shrink_le nodes' s.level) (wf_level_le hwf)
  · intro habs
    rw [habs]
    exact shrink_empty s.level (wf_level_pos hwf)
  · intro hne
    exact shrink_top_occ nodes' s.level (wf_level_pos hwf) hlvp hne
  · rw [wf_len hwf, hndef]
    rw [List.length_append, List.length_take, List.length_drop]
    omega

theorem wf_insertG {α : Type} {lt : α → α → Bool} {s : SkipList α} {it : α}
    {lvl : Nat} (hsw : IsSWO lt) (hwf : WF lt s)
    (hl1 : 1 ≤ lvl) (hl2 : lvl ≤ s.maxLevel) :
    WF lt (insertG s lt it lvl) := by
  by_cases hL : prefLen lt it s.nodes < s.nodes.length
  · obtain ⟨n, hg⟩ : ∃ n, s.nodes[prefLen lt it s.nodes]? = some n :=
      exists_getElem s.nodes (prefLen lt it s.nodes) hL
    by_cases hne : lt it n.item = true
    · rw [insertG_new_lt hsw hwf lvl hg hne]
      refine wf_insNew hsw hwf hl1 hl2 ?_
      intro y hy
      rw [hg, Option.some_inj] at hy
      rw [← hy]
      exact hne
    · rw [insertG_update hsw hwf lvl hg (by simpa using hne)]
      exact wf_update hsw hwf hg (by simpa using hne)
  · rw [insertG_new_high hsw hwf lvl (by omega)]
    refine wf_insNew hsw hwf hl1 hl2 ?_
    intro y hy
    exfalso
    have := (List.getElem?_eq_some_iff.mp hy).1
    omega

theorem wf_deleteG {α : Type} {lt : α → α → Bool} {s : SkipList α} {it : α}
    (hsw : IsSWO lt) (hwf : WF lt s) :
    WF lt (deleteG s lt it).1 := by
  by_cases hL : prefLen lt it s.nodes < s.nodes.length
  · obtain ⟨n, hg⟩ : ∃ n, s.nodes[prefLen lt it s.nodes]? = some n :=
      exists_getElem s.nodes (prefLen lt it s.nodes) hL
    by_cases hne : lt it n.item = true
    · rw [deleteG_miss_lt hsw hwf hg hne]
      exact hwf
    · rw [deleteG_found hsw hwf hg (by simpa using hne)]
      exact wf_erase hsw hwf hg
  · rw [deleteG_miss_high hsw hwf (by omega)]
    exact hwf

theorem wf_newWithLevel {α : Type} {lt : α → α → Bool} {ml : Int} {s : SkipList α}
    (h : NewWithLevel α ml = some s) : WF lt s := by
  unfold NewWithLevel at h
  by_cases hcond : ml < 1 ∨ (DefaultMaxLevel : Int) < ml
  · rw [if_pos hcond] at h
    exact absurd h (by simp)
  · rw [if_neg hcond] at h
    rw [Option.some_inj] at h
    push_neg at hcond
    subst h
    refine ⟨rfl, by simp, by simp, ?_, fun _ => rfl, by simp, rfl⟩
    simp only []
    omega

theorem randomLevelGo_bounds (ml : Nat) (u : Nat → Nat) :
    ∀ (k lvl i : Nat), lvl ≤ ml →
      lvl ≤ randomLevelGo ml u k lvl i ∧ randomLevelGo ml u k lvl i ≤ ml
  | 0, lvl, i, hle => ⟨Nat.le_refl _, hle⟩
  | k + 1, lvl, i, hle => by
    rw [randomLevelGo]
    by_cases hcond : lvl < ml ∧ rlDraw (u i) = true
    · rw [if_pos hcond]
      have := randomLevelGo_bounds ml u k (lvl + 1) (i + 1) (by omega)
      exact ⟨by omega, this.2⟩
    · rw [if_neg hcond]
      exact ⟨Nat.le_refl _, hle⟩

theorem randomLevel_bounds (ml : Nat) (u : Nat → Nat) (h : 1 ≤ ml) :
    1 ≤ randomLevel ml u ∧ randomLevel ml u ≤ ml :=
  randomLevelGo_bounds ml u ml 1 0 h

theorem reachable_wf {α : Type} {lt : α → α → Bool} {s : SkipList α}
    (hsw : IsSWO lt) (h : Reachable lt s) : WF lt s := by
  induction h with
  | base ml s hml => exact wf_newWithLevel hml
  | ins s it u _ ih =>
    have hmax : 1 ≤ s.maxLevel := Nat.le_trans (wf_level_pos ih) (wf_level_le ih)
    exact wf_insertG hsw ih (randomLevel_bounds _ u hmax).1 (randomLevel_bounds _ u hmax).2
  | del s it _ ih => exact wf_deleteG hsw ih

theorem forEachAux_none_x {α : Type} (s : SkipList α) (stop : Option Nat)
    (hstop : stop = none) :
    ∀ fuel, forEachAux s stop none fuel = [] := by
  intro fuel
  cases fuel with
  | zero => rfl
  | succ fuel =>
    rw [forEachAux]
    split <;> rfl

theorem forEachAux_no_stop {α : Type} {s : SkipList α}
    (hlv : ∀ n ∈ s.nodes, 1 ≤ n.lvl) :
    ∀ (fuel p : Nat), 1 ≤ p → s.nodes.length + 1 - p ≤ fuel →
      forEachAux s none (some p) fuel = (s.nodes.drop (p - 1)).map (·.item)
  | 0, p, hp, hfuel => by
    rw [forEachAux]
    rw [List.drop_eq_nil_of_le (by omega)]
    rfl
  | fuel + 1, p, hp, hfuel => by
    rw [forEachAux, if_neg (by simp)]
    by_cases hplen : p - 1 < s.nodes.length
    · obtain ⟨n, hg⟩ : ∃ n, s.nodes[p - 1]? = some n :=
        exists_getElem s.nodes (p - 1) hplen
      have hp1 : p - 1 + 1 = p := by omega
      have hd : s.nodes.drop (p - 1) = n :: s.nodes.drop p := by
        have h1 := List.drop_eq_getElem_cons hplen
        have he : s.nodes[p - 1] = n := (List.getElem?_eq_some_iff.mp hg).2
        rw [h1, he, hp1]
      rw [hg]
      rw [fwd_zero hlv]
      by_cases hplt : p < s.nodes.length
      · rw [if_pos hplt]
        have hfuel2 : s.nodes.length + 1 - (p + 1) ≤ fuel := by omega
        rw [forEachAux_no_stop hlv fuel (p + 1) (by omega) hfuel2]
        rw [hd]
        simp
      · rw [if_neg hplt]
        rw [forEachAux_none_x s none rfl]
        rw [hd, List.drop_eq_nil_of_le (by omega)]
        simp
    · rw [List.getElem?_eq_none (by omega)]
      rw [List.drop_eq_nil_of_le (by omega)]
      rfl

theorem forEachAux_stop_eq {α : Type} {s : SkipList α}
    (hlv : ∀ n ∈ s.nodes, 1 ≤ n.lvl) :
    ∀ (fuel p E : Nat), 1 ≤ p → p ≤ E → E ≤ s.nodes.length →
      s.nodes.length + 1 - p ≤ fuel →
      forEachAux s (some E) (some p) fuel =
        ((s.nodes.drop (p - 1)).take (E - p)).map (·.item)
  | 0, p, E, hp, hpE, hE, hfuel => by omega
  | fuel + 1, p, E, hp, hpE, hE, hfuel => by
    by_cases hstop : p = E
    · rw [forEachAux, if_pos (by rw [hstop])]
      rw [hstop, Nat.sub_self, List.take_zero, List.map_nil]
    · have hplen : p < s.nodes.length := by omega
      rw [forEachAux, if_neg (by simpa using hstop)]
      obtain ⟨n, hg⟩ : ∃ n, s.nodes[p - 1]? = some n :=
        exists_getElem s.nodes (p - 1) (by omega)
      have hp1 : p - 1 + 1 = p := by omega
      have hd : s.nodes.drop (p - 1) = n :: s.nodes.drop p := by
        have h1 := List.drop_eq_getElem_cons (l := s.nodes) (n := p - 1) (by omega)
        have he : s.nodes[p - 1] = n := (List.getElem?_eq_some_iff.mp hg).2
        rw [h1, he, hp1]
      rw [hg]
      rw [fwd_zero hlv, if_pos hplen]
      have hfuel2 : s.nodes.length + 1 - (p + 1) ≤ fuel := by omega
      rw [forEachAux_stop_eq hlv fuel (p + 1) E (by omega) (by omega) hE hfuel2]
      rw [hd]
      have harith : E - p = (E - (p + 1)) + 1 := by omega
      rw [harith, List.take_succ_cons, List.map_cons]
      simp

theorem iterateAll_eq {α : Type} {s : SkipList α}
    (hlv : ∀ n ∈ s.nodes, 1 ≤ n.lvl) :
    iterateAll s = itemsOf s := by
  unfold iterateAll NewIterator
  rw [fwd_zero hlv]
  by_cases h0 : 0 < s.nodes.length
  · rw [if_pos h0]
    rw [forEachAux_no_stop hlv (s.nodes.length + 1) 1 (Nat.le_refl _) (by omega)]
    rw [itemsOf]
    simp
  · rw [if_neg h0]
    rw [forEachAux_none_x s none rfl]
    have : s.nodes = [] := by
      rw [← List.length_eq_zero]
      omega
    rw [itemsOf, this]
    rfl

theorem tw_congr {β : Type} (f g : β → Bool) (h : ∀ b, f b = g b) :
    ∀ l : List β, l.takeWhile f = l.takeWhile g
  | [] => rfl
  | a :: t => by
    rw [List.takeWhile_cons, List.takeWhile_cons, h a, tw_congr f g h t]

theorem randomLevelGo_run (ml : Nat) (u : Nat → Nat) :
    ∀ (k lvl i : Nat), lvl ≤ ml → ml - lvl ≤ k →
      randomLevelGo ml u k lvl i =
        lvl + ((List.range (ml - lvl)).takeWhile (fun j => rlDraw (u (i + j)))).length
  | 0, lvl, i, hle, hk => by
    have hml : ml - lvl = 0 := by omega
    rw [randomLevelGo, hml]
    rfl
  | k + 1, lvl, i, hle, hk => by
    rw [randomLevelGo]
    by_cases hcond : lvl < ml ∧ rlDraw (u i) = true
    · rw [if_pos hcond]
      rw [randomLevelGo_run ml u k (lvl + 1) (i + 1) (by omega) (by omega)]
      have hsplit : ml - lvl = (ml - (lvl + 1)) + 1 := by omega
      rw [hsplit, List.range_succ_eq_map]
      rw [List.takeWhile_cons]
      have h0 : rlDraw (u (i + 0)) = true := by
        rw [Nat.add_zero]
        exact hcond.2
      rw [if_pos h0, List.takeWhile_map]
      have hcg : (List.range (ml - (lvl + 1))).takeWhile
            ((fun j => rlDraw (u (i + j))) ∘ Nat.succ) =
          (List.range (ml - (lvl + 1))).takeWhile (fun j => rlDraw (u (i + 1 + j))) := by
        refine tw_congr _ _ (fun b => ?_) _
        have : i + Nat.succ b = i + 1 + b := by omega
        simp [Function.comp, this]
      rw [hcg]
      simp
      omega
    · rw [if_neg hcond]
      by_cases hml : lvl < ml
      · have hdraw : rlDraw (u i) = false := by
          cases hd : rlDraw (u i) with
          | true => exact absurd ⟨hml, hd⟩ hcond
          | false => rfl
        have hsplit : ml - lvl = (ml - (lvl + 1)) + 1 := by omega
        rw [hsplit, List.range_succ_eq_map, List.takeWhile_cons]
        rw [if_neg (show ¬ rlDraw (u (i + 0)) = true by rw [Nat.add_zero, hdraw]; simp)]
        simp
      · have hml0 : ml - lvl = 0 := by omega
        rw [hml0]
        rfl

theorem randomLevel_run (ml : Nat) (u : Nat → Nat) (h : 1 ≤ ml) :
    randomLevel ml u =
      1 + ((List.range (ml - 1)).takeWhile (fun j => rlDraw (u j))).length := by
  unfold randomLevel
  rw [randomLevelGo_run ml u ml 1 0 h (by omega)]
  congr 1
  refine congrArg List.length (tw_congr _ _ (fun b => ?_) _)
  rw [Nat.zero_add]

theorem rlDraw_count :
    ((Finset.range 65536).filter (fun v => rlDraw v = true)).card = 16384 := by
  have hset : (Finset.range 65536).filter (fun v => rlDraw v = true) =
      Finset.range 16384 := by
    ext v
    simp only [Finset.mem_filter, Finset.mem_range, rlDraw, decide_eq_true_eq]
    omega
  rw [hset, Finset.card_range]

theorem Search_hit {α : Type} {lt : α → α → Bool} {s : SkipList α} {key : α}
    {n : Node α} (hsw : IsSWO lt) (hwf : WF lt s)
    (hg : s.nodes[prefLen lt key s.nodes]? = some n) :
    Search s lt key = if lt key n.item then none else some n.item := by
  have hL : prefLen lt key s.nodes < s.nodes.length := (List.getElem?_eq_some_iff.mp hg).1
  simp only [Search]
  rw [descend_from_zero (wf_lvl_pos hwf) hsw.lt_trans (wf_chain hwf) (wf_level_pos hwf),
    fwd_zero (wf_lvl_pos hwf), if_pos hL]
  simp only [Nat.add_sub_cancel]
  rw [hg]

theorem Search_none_high {α : Type} {lt : α → α → Bool} {s : SkipList α} {key : α}
    (hsw : IsSWO lt) (hwf : WF lt s)
    (hL : s.nodes.length ≤ prefLen lt key s.nodes) :
    Search s lt key = none := by
  simp only [Search]
  rw [descend_from_zero (wf_lvl_pos hwf) hsw.lt_trans (wf_chain hwf) (wf_level_pos hwf),
    fwd_zero (wf_lvl_pos hwf), if_neg (by omega)]

theorem search_char {α : Type} {lt : α → α → Bool} {s : SkipList α} {key : α}
    (hsw : IsSWO lt) (hwf : WF lt s) :
    (∀ y, Search s lt key = some y →
        y ∈ itemsOf s ∧ lt y key = false ∧ lt key y = false) ∧
    ((∃ y ∈ itemsOf s, lt y key = false ∧ lt key y = false) →
        (Search s lt key).isSome = true) ∧
    (Search s lt key = none → ∀ y ∈ itemsOf s, lt y key = true ∨ lt key y = true) := by
  by_cases hL : prefLen lt key s.nodes < s.nodes.length
  · obtain ⟨n, hg⟩ : ∃ n, s.nodes[prefLen lt key s.nodes]? = some n :=
      exists_getElem s.nodes (prefLen lt key s.nodes) hL
    have hS := Search_hit hsw hwf hg
    have hfL : lt n.item key = false :=
      tw_boundary (fun m : Node α => lt m.item key) s.nodes n hg
    cases hb : lt key n.item with
    | true =>
      rw [hb] at hS
      rw [if_pos rfl] at hS
      have hnoeq : ¬ ∃ y ∈ itemsOf s, lt y key = false ∧ lt key y = false := by
        intro habs
        obtain ⟨n2, hg2, hne2⟩ := (equal_mem_iff hsw hwf).mp habs
        rw [hg, Option.some_inj] at hg2
        rw [← hg2] at hne2
        rw [hb] at hne2
        exact absurd hne2 (by simp)
      rw [hS]
      exact ⟨fun y hy => absurd hy (by simp), fun habs => absurd habs hnoeq,
        fun _ => no_equal_all hnoeq⟩
    | false =>
      rw [hb] at hS
      rw [if_neg (by simp)] at hS
      rw [hS]
      refine ⟨?_, fun _ => rfl, fun habs => absurd habs (by simp)⟩
      intro y hy
      rw [Option.some_inj] at hy
      rw [← hy]
      exact ⟨List.mem_map_of_mem _ (List.getElem?_mem hg), hfL, hb⟩
  · have hS := @Search_none_high α lt s key hsw hwf (by omega)
    have hnoeq : ¬ ∃ y ∈ itemsOf s, lt y key = false ∧ lt key y = false := by
      intro habs
      obtain ⟨n2, hg2, _⟩ := (equal_mem_iff hsw hwf).mp habs
      rw [List.getElem?_eq_none (by omega)] at hg2
      exact absurd hg2 (by simp)
    rw [hS]
    exact ⟨fun y hy => absurd hy (by simp), fun habs => absurd habs hnoeq,
      fun _ => no_equal_all hnoeq⟩

theorem asym_of_swo {α : Type} {lt : α → α → Bool} (hsw : IsSWO lt) {a b : α}
    (h : lt a b = true) : lt b a = false := by
  cases hb : lt b a with
  | false => rfl
  | true =>
    have h2 := hsw.lt_trans a b a h hb
    rw [hsw.irrefl a] at h2
    exact absurd h2 (by simp)

theorem chain_dropWhile_prop {β : Type} {R : β → β → Prop}
    (htr : ∀ a b c, R a b → R b c → R a c) (f : β → Bool)
    (hstep : ∀ x y, f x = false → R x y → f y = false) :
    ∀ l : List β, List.Chain' R l → ∀ v ∈ l.dropWhile f, f v = false
  | [] => by simp
  | a :: t => by
    intro hc v hv
    by_cases ha : f a = true
    · rw [List.dropWhile_cons, if_pos ha] at hv
      exact chain_dropWhile_prop htr f hstep t hc.tail v hv
    · rw [List.dropWhile_cons, if_neg ha] at hv
      rcases List.mem_cons.mp hv with hv | hv
      · rw [hv]
        exact (Bool.not_eq_true _).mp ha
      · haveI : IsTrans β R := ⟨fun x y z hxy hyz => htr x y z hxy hyz⟩
        have hpw := List.chain'_iff_pairwise.mp hc
        have hR : R a v := List.rel_of_pairwise_cons hpw hv
        exact hstep a v ((Bool.not_eq_true _).mp ha) hR

theorem pred_window_left {α : Type} {lt : α → α → Bool} (hsw : IsSWO lt) {b e : α}
    (hbe : lt e b = false) {n : Node α} (h : lt n.item b = true) :
    (!(lt e n.item)) = true := by
  cases hev : lt e n.item with
  | false => rfl
  | true =>
    have := hsw.lt_trans e n.item b hev h
    rw [this] at hbe
    exact absurd hbe (by simp)

theorem sorted_filter_window {α : Type} {lt : α → α → Bool} (hsw : IsSWO lt)
    {l : List (Node α)}
    (hc : List.Chain' (fun a b : Node α => lt a.item b.item = true) l) {b e : α}
    (hbe : lt e b = false) :
    l.filter (fun n => !(lt n.item b) && !(lt e n.item)) =
      (l.drop (prefLen lt b l)).take (prefGe lt e l - prefLen lt b l) := by
  have hpbqe : ∀ n : Node α, (fun n : Node α => lt n.item b) n = true →
      (fun n : Node α => !(lt e n.item)) n = true :=
    fun n h => pred_window_left hsw hbe h
  have hLbHe : prefLen lt b l ≤ prefGe lt e l :=
    tw_mono (fun n : Node α => lt n.item b) (fun n : Node α => !(lt e n.item)) hpbqe l
  have hHelen : prefGe lt e l ≤ l.length :=
    twLen_le (fun n : Node α => !(lt e n.item)) l
  have hseg : (l.take (prefGe lt e l)).drop (prefLen lt b l) =
      (l.drop (prefLen lt b l)).take (prefGe lt e l - prefLen lt b l) :=
    List.drop_take _ _ _
  have htakeadd : l.take (prefGe lt e l) =
      l.take (prefLen lt b l) ++
        (l.drop (prefLen lt b l)).take (prefGe lt e l - prefLen lt b l) := by
    have := List.take_add l (prefLen lt b l) (prefGe lt e l - prefLen lt b l)
    rw [← this]
    congr 1
    omega
  have hdecomp : l = l.take (prefLen lt b l) ++
      ((l.drop (prefLen lt b l)).take (prefGe lt e l - prefLen lt b l) ++
        l.drop (prefGe lt e l)) := by
    conv_lhs => rw [← List.take_append_drop (prefGe lt e l) l]
    rw [htakeadd, List.append_assoc]
  have hf1 : (l.take (prefLen lt b l)).filter
      (fun n => !(lt n.item b) && !(lt e n.item)) = [] := by
    rw [List.filter_eq_nil_iff]
    intro n hn
    rw [prefLen, take_tw] at hn
    have := List.mem_takeWhile_imp hn
    simp [this]
  have hf2 : ((l.drop (prefLen lt b l)).take
        (prefGe lt e l - prefLen lt b l)).filter
      (fun n => !(lt n.item b) && !(lt e n.item)) =
      (l.drop (prefLen lt b l)).take (prefGe lt e l - prefLen lt b l) := by
    rw [List.filter_eq_self]
    intro n hn
    have hn1 : n ∈ l.drop (prefLen lt b l) := List.take_subset _ _ hn
    have hn2 : n ∈ l.take (prefGe lt e l) := by
      rw [← hseg] at hn
      exact List.drop_subset _ _ hn
    have hpb : lt n.item b = false := by
      rw [prefLen, drop_tw] at hn1
      refine chain_dropWhile_prop
        (fun x y z hxy hyz => hsw.lt_trans x.item y.item z.item hxy hyz)
        (fun m : Node α => lt m.item b) ?_ l hc n hn1
      intro x y hx hR
      cases hy : lt y.item b with
      | false => exact hy
      | true =>
        have h3 := hsw.lt_trans x.item y.item b hR hy
        have h4 : lt x.item b = false := by simpa using hx
        rw [h3] at h4
        exact absurd h4 (by simp)
    have hqe : lt e n.item = false := by
      rw [prefGe, take_tw] at hn2
      have := List.mem_takeWhile_imp hn2
      simpa using this
    simp [hpb, hqe]
  have hf3 : (l.drop (prefGe lt e l)).filter
      (fun n => !(lt n.item b) && !(lt e n.item)) = [] := by
    rw [List.filter_eq_nil_iff]
    intro n hn
    rw [prefGe, drop_tw] at hn
    have hqe : (fun m : Node α => !(lt e m.item)) n = false := by
      refine chain_dropWhile_prop
        (fun x y z hxy hyz => hsw.lt_trans x.item y.item z.item hxy hyz)
        (fun m : Node α => !(lt e m.item)) ?_ l hc n hn
      intro x y hx hR
      have hex : lt e x.item = true := by simpa using hx
      have := hsw.lt_trans e x.item y.item hex hR
      simp [this]
    have : lt e n.item = true := by simpa using hqe
    simp [this]
  conv_lhs => rw [hdecomp]
  rw [List.filter_append, List.filter_append, hf1, hf2, hf3]
  simp

theorem prefGe_of_all_lt {α : Type} {lt : α → α → Bool} (hsw : IsSWO lt) {e : α}
    {l : List (Node α)} (hLe : l.length ≤ prefLen lt e l) :
    prefGe lt e l = l.length := by
  have hpref : prefLen lt e l =
      (l.takeWhile (fun n : Node α => lt n.item e)).length := rfl
  refine Nat.le_antisymm (twLen_le _ l) ?_
  refine tw_ge (fun n : Node α => !(lt e n.item)) l l.length (Nat.le_refl _) ?_
  intro r v hr hg
  have hpe : lt v.item e = true :=
    tw_get_true (fun n : Node α => lt n.item e) l r v (by omega) hg
  simp [asym_of_swo hsw hpe]

theorem prefGe_of_equal {α : Type} {lt : α → α → Bool} (hsw : IsSWO lt) {e : α}
    {l : List (Node α)}
    (hc : List.Chain' (fun a b : Node α => lt a.item b.item = true) l)
    {nLe : Node α} (hgLe : l[prefLen lt e l]? = some nLe)
    (heq : lt e nLe.item = false) :
    prefGe lt e l = prefLen lt e l + 1 := by
  have hLelen : prefLen lt e l < l.length := (List.getElem?_eq_some_iff.mp hgLe).1
  have hfLe : lt nLe.item e = false :=
    tw_boundary (fun n : Node α => lt n.item e) l nLe hgLe
  refine Nat.le_antisymm ?_ ?_
  · by_contra habs
    rw [Nat.not_le] at habs
    have hH2len : prefLen lt e l + 1 < l.length := by
      have := twLen_le (fun n : Node α => !(lt e n.item)) l
      rw [prefGe] at habs
      omega
    obtain ⟨w, hgw⟩ : ∃ w, l[prefLen lt e l + 1]? = some w :=
      exists_getElem l (prefLen lt e l + 1) hH2len
    have hqew : (fun n : Node α => !(lt e n.item)) w = true :=
      tw_get_true (fun n : Node α => !(lt e n.item)) l (prefLen lt e l + 1) w
        (by rw [prefGe] at habs; omega) hgw
    have hew : lt e w.item = false := by simpa using hqew
    have hch := chain_get_lt hsw.lt_trans hc (prefLen lt e l) (prefLen lt e l + 1)
      nLe w (by omega) hgLe hgw
    have := hsw.nlt_trans nLe.item e w.item hfLe hew
    rw [this] at hch
    exact absurd hch (by simp)
  · refine tw_ge (fun n : Node α => !(lt e n.item)) l (prefLen lt e l + 1)
      (by omega) ?_
    intro r v hr hg
    by_cases hrLe : r < prefLen lt e l
    · have hpe : lt v.item e = true :=
        tw_get_true (fun n : Node α => lt n.item e) l r v hrLe hg
      simp [asym_of_swo hsw hpe]
    · have hreq : r = prefLen lt e l := by omega
      rw [hreq] at hg
      rw [hgLe, Option.some_inj] at hg
      rw [← hg]
      simp [heq]

theorem prefGe_of_less {α : Type} {lt : α → α → Bool} (hsw : IsSWO lt) {e : α}
    {l : List (Node α)} {nLe : Node α} (hgLe : l[prefLen lt e l]? = some nLe)
    (hlt : lt e nLe.item = true) :
    prefGe lt e l = prefLen lt e l := by
  refine Nat.le_antisymm ?_ ?_
  · by_contra habs
    rw [Nat.not_le] at habs
    have hqe : (fun n : Node α => !(lt e n.item)) nLe = true :=
      tw_get_true (fun n : Node α => !(lt e n.item)) l (prefLen lt e l) nLe
        (by rw [prefGe] at habs; omega) hgLe
    have h2 : lt e nLe.item = false := by simpa using hqe
    rw [hlt] at h2
    exact absurd h2 (by simp)
  · refine tw_mono (fun n : Node α => lt n.item e) (fun n : Node α => !(lt e n.item))
      ?_ l
    intro n h
    simp [asym_of_swo hsw h]

theorem newRange_eq {α : Type} {lt : α → α → Bool} {s : SkipList α} {b e : α}
    (hsw : IsSWO lt) (hwf : WF lt s) (h0 : 0 < s.nodes.length)
    (hbe : lt e b = false) :
    NewRange s lt b e =
      ⟨if prefLen lt b s.nodes < s.nodes.length then some (prefLen lt b s.nodes + 1)
         else none,
       if prefGe lt e s.nodes < s.nodes.length then some (prefGe lt e s.nodes + 1)
         else none⟩ := by
  obtain ⟨mn, hmn⟩ : ∃ mn, s.nodes[0]? = some mn :=
    exists_getElem s.nodes (0) h0
  have hm : fwd s 0 0 = some 1 := by rw [fwd_zero (wf_lvl_pos hwf), if_pos h0]
  simp only [NewRange]
  rw [hm]
  simp only [hbe, Bool.false_eq_true, if_false]
  rw [(show (1 : Nat) - 1 = 0 by rfl)]
  rw [hmn]
  show (⟨(match searchNode s lt b with
      | none => if lt b mn.item then some 1 else none
      | some p => some p),
    (match searchNode s lt e with
      | none => if lt e mn.item then some 1 else none
      | some p =>
        match s.nodes[p - 1]? with
        | none => some p
        | some pn => if lt e pn.item then some p else fwd s p 0)⟩ : RangeM) = _
  refine congrArg₂ RangeM.mk ?_ ?_
  · rw [@searchNode_eq α lt b s (wf_lvl_pos hwf) hsw.lt_trans (wf_chain hwf)
      (wf_level_pos hwf)]
    by_cases hLb : prefLen lt b s.nodes < s.nodes.length
    · rw [if_pos hLb]
    · rw [if_neg hLb]
      have h0Lb : 0 < prefLen lt b s.nodes := by omega
      have hlt0 : lt mn.item b = true :=
        tw_get_true (fun n : Node α => lt n.item b) s.nodes 0 mn h0Lb hmn
      have hnb : lt b mn.item = false := asym_of_swo hsw hlt0
      show (if lt b mn.item then some 1 else none) = _
      rw [if_neg (by simp [hnb])]
  · rw [@searchNode_eq α lt e s (wf_lvl_pos hwf) hsw.lt_trans (wf_chain hwf)
      (wf_level_pos hwf)]
    by_cases hLe : prefLen lt e s.nodes < s.nodes.length
    · rw [if_pos hLe]
      obtain ⟨nLe, hgLe⟩ : ∃ nLe, s.nodes[prefLen lt e s.nodes]? = some nLe :=
        exists_getElem s.nodes (prefLen lt e s.nodes) hLe
      show (match s.nodes[prefLen lt e s.nodes + 1 - 1]? with
          | none => some (prefLen lt e s.nodes + 1)
          | some pn => if lt e pn.item then some (prefLen lt e s.nodes + 1)
              else fwd s (prefLen lt e s.nodes + 1) 0) = _
      rw [Nat.add_sub_cancel, hgLe]
      show (if lt e nLe.item then some (prefLen lt e s.nodes + 1)
          else fwd s (prefLen lt e s.nodes + 1) 0) = _
      cases hcmp : lt e nLe.item with
      | true =>
        rw [if_pos rfl]
        rw [prefGe_of_less hsw hgLe hcmp, if_pos hLe]
      | false =>
        rw [if_neg (by simp)]
        rw [fwd_zero (wf_lvl_pos hwf)]
        rw [prefGe_of_equal hsw (wf_chain hwf) hgLe hcmp]
    · rw [if_neg hLe]
      have h0Le : 0 < prefLen lt e s.nodes := by omega
      have hlt0 : lt mn.item e = true :=
        tw_get_true (fun n : Node α => lt n.item e) s.nodes 0 mn h0Le hmn
      have hne : lt e mn.item = false := asym_of_swo hsw hlt0
      rw [prefGe_of_all_lt hsw (by omega)]
      show (if lt e mn.item then some 1 else none) = _
      rw [if_neg (by simp [hne]), if_neg (by omega)]

theorem filter_items_eq {α : Type} (lt : α → α → Bool) (s : SkipList α) (b e : α) :
    (itemsOf s).filter (fun v => !(lt v b) && !(lt e v)) =
      (s.nodes.filter (fun n => !(lt n.item b) && !(lt e n.item))).map (·.item) := by
  rw [itemsOf, List.filter_map]
  rfl

theorem newRange_forEach {α : Type} {lt : α → α → Bool} {s : SkipList α} {b e : α}
    (hsw : IsSWO lt) (hwf : WF lt s) :
    ForEach s (NewRange s lt b e) =
      (itemsOf s).filter (fun v => !(lt v b) && !(lt e v)) := by
  by_cases hemp : s.nodes.length = 0
  · have hnil : s.nodes = [] := List.length_eq_zero.mp hemp
    have hm : fwd s 0 0 = none := by
      rw [fwd_zero (wf_lvl_pos hwf), if_neg (by omega)]
    have hr : NewRange s lt b e = ⟨none, none⟩ := by
      simp only [NewRange]
      rw [hm]
    rw [hr, ForEach, forEachAux_none_x s none rfl, itemsOf, hnil]
    rfl
  · by_cases hbe : lt e b = true
    · have hm : fwd s 0 0 = some 1 := by
        rw [fwd_zero (wf_lvl_pos hwf), if_pos (by omega)]
      have hr : NewRange s lt b e = ⟨none, none⟩ := by
        simp only [NewRange]
        rw [hm]
        show (if lt e b then (⟨none, none⟩ : RangeM) else _) = _
        rw [if_pos hbe]
      rw [hr, ForEach, forEachAux_none_x s none rfl]
      symm
      rw [List.filter_eq_nil_iff]
      intro v _ habs
      rw [Bool.and_eq_true] at habs
      have h1 : lt v b = false := by simpa using habs.1
      have h2 : lt e v = false := by simpa using habs.2
      have := hsw.nlt_trans e v b h2 h1
      rw [hbe] at this
      exact absurd this (by simp)
    · have hbe2 : lt e b = false := by simpa using hbe
      rw [newRange_eq hsw hwf (by omega) hbe2]
      have hfm := filter_items_eq lt s b e
      have hwin := sorted_filter_window hsw (wf_chain hwf) hbe2
      have hLbHe : prefLen lt b s.nodes ≤ prefGe lt e s.nodes :=
        tw_mono (fun n : Node α => lt n.item b) (fun n : Node α => !(lt e n.item))
          (fun n h => pred_window_left hsw hbe2 h) s.nodes
      have hHelen : prefGe lt e s.nodes ≤ s.nodes.length :=
        twLen_le (fun n : Node α => !(lt e n.item)) s.nodes
      have hLblen : prefLen lt b s.nodes ≤ s.nodes.length :=
        twLen_le (fun n : Node α => lt n.item b) s.nodes
      simp only [ForEach]
      by_cases hLb : prefLen lt b s.nodes < s.nodes.length
      · rw [if_pos hLb]
        by_cases hHe : prefGe lt e s.nodes < s.nodes.length
        · rw [if_pos hHe]
          rw [forEachAux_stop_eq (wf_lvl_pos hwf) (s.nodes.length + 1)
            (prefLen lt b s.nodes + 1) (prefGe lt e s.nodes + 1) (by omega)
            (by omega) (by omega) (by omega)]
          rw [hfm, hwin]
          rw [Nat.add_sub_cancel, Nat.succ_sub_succ]
        · have hHeEq : prefGe lt e s.nodes = s.nodes.length := by omega
          rw [if_neg hHe]
          rw [forEachAux_no_stop (wf_lvl_pos hwf) (s.nodes.length + 1)
            (prefLen lt b s.nodes + 1) (by omega) (by omega)]
          rw [hfm, hwin, Nat.add_sub_cancel]
          rw [List.take_of_length_le (by rw [List.length_drop]; omega)]
      · rw [if_neg hLb, if_neg (by omega)]
        rw [forEachAux_none_x s none rfl]
        rw [hfm, hwin]
        rw [List.drop_eq_nil_of_le (by omega)]
        simp

theorem filter_items {α : Type} (p : α → Bool) (s : SkipList α) :
    (itemsOf s).filter p = (s.nodes.filter (fun n => p n.item)).map (·.item) := by
  rw [itemsOf, List.filter_map]
  rfl

theorem erase_eq_filter {α : Type} {lt : α → α → Bool} {it : α} (hsw : IsSWO lt)
    {l : List (Node α)}
    (hc : List.Chain' (fun a b : Node α => lt a.item b.item = true) l)
    {n : Node α} (hg : l[prefLen lt it l]? = some n) (hne : lt it n.item = false) :
    l.take (prefLen lt it l) ++ l.drop (prefLen lt it l + 1) =
      l.filter (fun m => lt m.item it || lt it m.item) := by
  have hL : prefLen lt it l < l.length := (List.getElem?_eq_some_iff.mp hg).1
  have hfL : lt n.item it = false :=
    tw_boundary (fun m : Node α => lt m.item it) l n hg
  have hdropc : l.drop (prefLen lt it l) = n :: l.drop (prefLen lt it l + 1) := by
    have h1 := List.drop_eq_getElem_cons (l := l) (n := prefLen lt it l) hL
    have he : l[prefLen lt it l] = n := (List.getElem?_eq_some_iff.mp hg).2
    rw [h1, he]
  have hsplit : l = l.take (prefLen lt it l) ++ (n :: l.drop (prefLen lt it l + 1)) := by
    conv_lhs => rw [← List.take_append_drop (prefLen lt it l) l]
    rw [hdropc]
  have hafter : ∀ w ∈ l.drop (prefLen lt it l + 1), lt it w.item = true := by
    intro w hw
    obtain ⟨j, hj⟩ := List.mem_iff_getElem?.mp hw
    rw [List.getElem?_drop] at hj
    have hch := chain_get_lt hsw.lt_trans hc (prefLen lt it l)
      (prefLen lt it l + 1 + j) n w (by omega) hg hj
    cases hb : lt it w.item with
    | true => rfl
    | false =>
      have := hsw.nlt_trans n.item it w.item hfL hb
      rw [this] at hch
      exact absurd hch (by simp)
  conv_rhs => rw [hsplit]
  rw [List.filter_append, List.filter_cons]
  have hpn : (lt n.item it || lt it n.item) = false := by
    rw [hfL, hne]
    rfl
  rw [hpn]
  simp only [Bool.false_eq_true, if_false]
  have hf1 : (l.take (prefLen lt it l)).filter
      (fun m => lt m.item it || lt it m.item) = l.take (prefLen lt it l) := by
    rw [List.filter_eq_self]
    intro m hm
    rw [prefLen, take_tw] at hm
    have := List.mem_takeWhile_imp hm
    simp [this]
  have hf2 : (l.drop (prefLen lt it l + 1)).filter
      (fun m => lt m.item it || lt it m.item) = l.drop (prefLen lt it l + 1) := by
    rw [List.filter_eq_self]
    intro m hm
    simp [hafter m hm]
  rw [hf1, hf2]

theorem prefLen_eq_len_of_all {α : Type} {lt : α → α → Bool} {s : SkipList α}
    {key : α} (hall : ∀ y ∈ itemsOf s, lt y key = true) :
    prefLen lt key s.nodes = s.nodes.length := by
  refine Nat.le_antisymm (twLen_le _ _) ?_
  refine tw_ge (fun n : Node α => lt n.item key) s.nodes s.nodes.length
    (Nat.le_refl _) ?_
  intro r v _ hg
  exact hall v.item (List.mem_map_of_mem _ (List.getElem?_mem hg))

theorem searchNode_none_all_lt {α : Type} {lt : α → α → Bool} {s : SkipList α}
    {key : α} (hsw : IsSWO lt) (hwf : WF lt s)
    (hall : ∀ y ∈ itemsOf s, lt y key = true) :
    searchNode s lt key = none := by
  rw [@searchNode_eq α lt key s (wf_lvl_pos hwf) hsw.lt_trans (wf_chain hwf)
    (wf_level_pos hwf)]
  rw [prefLen_eq_len_of_all hall]
  simp

theorem items_chain {α : Type} {lt : α → α → Bool} {s : SkipList α} (hwf : WF lt s) :
    List.Chain' (fun a b => lt a b = true) (itemsOf s) := by
  rw [itemsOf, List.chain'_map]
  exact wf_chain hwf

theorem items_pairwise {α : Type} {lt : α → α → Bool} {s : SkipList α}
    (hsw : IsSWO lt) (hwf : WF lt s) :
    List.Pairwise (fun a b => lt a b = true) (itemsOf s) := by
  haveI : IsTrans α (fun a b => lt a b = true) :=
    ⟨fun a b c hab hbc => hsw.lt_trans a b c hab hbc⟩
  exact List.chain'_iff_pairwise.mp (items_chain hwf)

/-- C1: for every skip list and every finite sequence of Insert and Delete
operations applied to a fresh list, iterating from a fresh iterator
(`NewIterator`, then `Next` while `Valid`) yields exactly the stored items,
in strictly ascending order under the Less relation, and no two visited
items are mutually non-less (no duplicates). -/
theorem claim_C1_iterate_sorted {α : Type} {lt : α → α → Bool} {s : SkipList α}
    (hsw : IsSWO lt) (hr : Reachable lt s) :
    iterateAll s = itemsOf s ∧
    List.Chain' (fun a b => lt a b = true) (iterateAll s) ∧
    List.Pairwise (fun a b => ¬(lt a b = false ∧ lt b a = false)) (iterateAll s) := by
  have hwf := reachable_wf hsw hr
  have h1 := iterateAll_eq (wf_lvl_pos hwf)
  refine ⟨h1, ?_, ?_⟩
  · rw [h1]
    exact items_chain hwf
  · rw [h1]
    refine (items_pairwise hsw hwf).imp ?_
    intro a b hab habs
    rw [habs.1] at hab
    exact absurd hab (by simp)

theorem claim_C1_witness :
    iterateAll (insertG sEmpty4 intLt 5 (randomLevel sEmpty4.maxLevel
        (fun _ => 20000))) =
      itemsOf (insertG sEmpty4 intLt 5 (randomLevel sEmpty4.maxLevel
        (fun _ => 20000))) :=
  (claim_C1_iterate_sorted intLt_swo (Reachable.ins sEmpty4 5 (fun _ => 20000)
    (Reachable.base 4 sEmpty4 (by decide)))).1

/-- C2: for every well-formed skip list, `NewRange(begin, end)` followed by
`ForEach` visits exactly the stored items `x` with `begin ≤ x ≤ end` under the
ordering (`x` not less than `begin` and `end` not less than `x`), in strictly
ascending order; when the structure is empty or `end` is less than `begin`
the enumeration is empty. -/
theorem claim_C2_range {α : Type} {lt : α → α → Bool} {s : SkipList α} {b e : α}
    (hsw : IsSWO lt) (hwf : WF lt s) :
    ForEach s (NewRange s lt b e) =
      (itemsOf s).filter (fun v => !(lt v b) && !(lt e v)) ∧
    ((s.nodes = [] ∨ lt e b = true) → ForEach s (NewRange s lt b e) = []) ∧
    List.Chain' (fun x y => lt x y = true) (ForEach s (NewRange s lt b e)) := by
  have h1 := newRange_forEach (b := b) (e := e) hsw hwf
  refine ⟨h1, ?_, ?_⟩
  · intro hcase
    rw [h1]
    rcases hcase with hnil | hlt
    · rw [itemsOf, hnil]
      rfl
    · rw [List.filter_eq_nil_iff]
      intro v _ habs
      rw [Bool.and_eq_true] at habs
      have hv1 : lt v b = false := by simpa using habs.1
      have hv2 : lt e v = false := by simpa using habs.2
      have := hsw.nlt_trans e v b hv2 hv1
      rw [hlt] at this
      exact absurd this (by simp)
  · rw [h1]
    exact ((items_pairwise hsw hwf).filter _).chain'

theorem claim_C2_witness :
    ForEach sTwo (NewRange sTwo intLt 1 3) =
      (itemsOf sTwo).filter (fun v => !(intLt v 1) && !(intLt 3 v)) :=
  (claim_C2_range intLt_swo (by decide)).1

/-- C3: for every well-formed skip list and key, `Search(key)` returns a
stored item mutually non-less with the key whenever one is stored, and `nil`
when no stored item is equal to the key; in particular `Search` on an empty
list returns `nil`. -/
theorem claim_C3_search {α : Type} {lt : α → α → Bool} {s : SkipList α} {key : α}
    (hsw : IsSWO lt) (hwf : WF lt s) :
    (∀ y, Search s lt key = some y →
        y ∈ itemsOf s ∧ lt y key = false ∧ lt key y = false) ∧
    ((∃ y ∈ itemsOf s, lt y key = false ∧ lt key y = false) →
        (Search s lt key).isSome = true) ∧
    ((¬ ∃ y ∈ itemsOf s, lt y key = false ∧ lt key y = false) →
        Search s lt key = none) ∧
    (s.nodes = [] → Search s lt key = none) := by
  obtain ⟨h1, h2, h3⟩ := search_char hsw hwf
  have hnone : (¬ ∃ y ∈ itemsOf s, lt y key = false ∧ lt key y = false) →
      Search s lt key = none := by
    intro hno
    cases hS : Search s lt key with
    | none => rfl
    | some y =>
      obtain ⟨hy, hy1, hy2⟩ := h1 y hS
      exact absurd ⟨y, hy, hy1, hy2⟩ hno
  refine ⟨h1, h2, hnone, ?_⟩
  intro hnil
  refine hnone ?_
  rintro ⟨y, hy, -⟩
  rw [itemsOf, hnil] at hy
  exact absurd hy (by simp)

theorem claim_C3_witness :
    (Search sTwo intLt 3).isSome = true :=
  (claim_C3_search intLt_swo (by decide)).2.1 ⟨3, by decide, by decide, by decide⟩

/-- C4: for every well-formed skip list, `Delete(item)` returns `true` and
decrements the length by one exactly when a stored item mutually non-less
with `item` exists, removing that item from the stored sequence and from
every lane; when no equal item is stored it returns `false` and the structure
is completely unchanged. -/
theorem claim_C4_delete {α : Type} {lt : α → α → Bool} {s : SkipList α} {it : α}
    (hsw : IsSWO lt) (hwf : WF lt s) :
    ((deleteG s lt it).2 = true ↔
      ∃ y ∈ itemsOf s, lt y it = false ∧ lt it y = false) ∧
    ((deleteG s lt it).2 = false → (deleteG s lt it).1 = s) ∧
    ((deleteG s lt it).2 = true →
      (deleteG s lt it).1.length + 1 = s.length ∧
      itemsOf (deleteG s lt it).1 =
        (itemsOf s).filter (fun v => lt v it || lt it v) ∧
      ∀ i, ∀ n ∈ laneNodes (deleteG s lt it).1 i,
        lt n.item it = true ∨ lt it n.item = true) := by
  by_cases hL : prefLen lt it s.nodes < s.nodes.length
  · obtain ⟨n, hg⟩ : ∃ n, s.nodes[prefLen lt it s.nodes]? = some n :=
      exists_getElem s.nodes (prefLen lt it s.nodes) hL
    by_cases hne : lt it n.item = true
    · rw [deleteG_miss_lt hsw hwf hg hne]
      have hnoeq : ¬ ∃ y ∈ itemsOf s, lt y it = false ∧ lt it y = false := by
        intro habs
        obtain ⟨n2, hg2, hne2⟩ := (equal_mem_iff hsw hwf).mp habs
        rw [hg, Option.some_inj] at hg2
        rw [← hg2] at hne2
        rw [hne] at hne2
        exact absurd hne2 (by simp)
      exact ⟨by simp [hnoeq], fun _ => rfl, fun habs => absurd habs (by simp)⟩
    · have hne2 : lt it n.item = false := by simpa using hne
      rw [deleteG_found hsw hwf hg hne2]
      have heq : ∃ y ∈ itemsOf s, lt y it = false ∧ lt it y = false :=
        (equal_mem_iff hsw hwf).mpr ⟨n, hg, hne2⟩
      refine ⟨by simp [heq], fun habs => absurd habs (by simp), fun _ => ?_⟩
      have hflt := erase_eq_filter hsw (wf_chain hwf) hg hne2
      refine ⟨?_, ?_, ?_⟩
      · rw [wf_len hwf]
        simp only []
        omega
      · show (s.nodes.take (prefLen lt it s.nodes) ++
            s.nodes.drop (prefLen lt it s.nodes + 1)).map (·.item) = _
        rw [hflt, filter_items (fun v => lt v it || lt it v) s]
      · intro i m hm
        rw [laneNodes] at hm
        have hm2 := List.mem_of_mem_filter hm
        simp only [] at hm2
        rw [hflt] at hm2
        have := List.of_mem_filter hm2
        rw [Bool.or_eq_true] at this
        exact this
  · rw [deleteG_miss_high hsw hwf (by omega)]
    have hnoeq : ¬ ∃ y ∈ itemsOf s, lt y it = false ∧ lt it y = false := by
      intro habs
      obtain ⟨n2, hg2, _⟩ := (equal_mem_iff hsw hwf).mp habs
      rw [List.getElem?_eq_none (by omega)] at hg2
      exact absurd hg2 (by simp)
    exact ⟨by simp [hnoeq], fun _ => rfl, fun habs => absurd habs (by simp)⟩

theorem claim_C4_witness :
    (deleteG sTwo intLt 5).1 = sTwo :=
  (claim_C4_delete intLt_swo (by decide)).2.1 (by decide)

/-- C5: for every well-formed skip list, `Insert` with an item equal
(mutually non-less) to a stored item overwrites that item in place — no node
is added, the node count, the free list and the length are unchanged — while
`Insert` with an item equal to no stored item adds exactly one new node
holding it and increments the length by one. -/
theorem claim_C5_insert {α : Type} {lt : α → α → Bool} {s : SkipList α} {it : α}
    {lvl : Nat} (hsw : IsSWO lt) (hwf : WF lt s) :
    ((∃ y ∈ itemsOf s, lt y it = false ∧ lt it y = false) →
      (insertG s lt it lvl).length = s.length ∧
      (insertG s lt it lvl).nodes.length = s.nodes.length ∧
      (insertG s lt it lvl).freelist = s.freelist ∧
      ∃ k y, (itemsOf s)[k]? = some y ∧ lt y it = false ∧ lt it y = false ∧
        itemsOf (insertG s lt it lvl) = (itemsOf s).set k it) ∧
    ((¬ ∃ y ∈ itemsOf s, lt y it = false ∧ lt it y = false) →
      (insertG s lt it lvl).length = s.length + 1 ∧
      (insertG s lt it lvl).nodes.length = s.nodes.length + 1 ∧
      ∃ l1 l2, itemsOf s = l1 ++ l2 ∧
        itemsOf (insertG s lt it lvl) = l1 ++ it :: l2) := by
  constructor
  · intro heq
    obtain ⟨n, hg, hne⟩ := (equal_mem_iff hsw hwf).mp heq
    rw [insertG_update hsw hwf lvl hg hne]
    have hfL : lt n.item it = false :=
      tw_boundary (fun m : Node α => lt m.item it) s.nodes n hg
    refine ⟨rfl, by simp, rfl, prefLen lt it s.nodes, n.item, ?_, hfL, hne, ?_⟩
    · rw [itemsOf, List.getElem?_map, hg]
      rfl
    · show (s.nodes.set (prefLen lt it s.nodes) ⟨it, n.lvl, n.fcap⟩).map (·.item) = _
      rw [List.map_set]
      rfl
  · intro hno
    have hnew : insertG s lt it lvl = insNew s it lvl (prefLen lt it s.nodes) := by
      by_cases hL : prefLen lt it s.nodes < s.nodes.length
      · obtain ⟨n, hg⟩ : ∃ n, s.nodes[prefLen lt it s.nodes]? = some n :=
          exists_getElem s.nodes (prefLen lt it s.nodes) hL
        have hne : lt it n.item = true := by
          cases hb : lt it n.item with
          | true => rfl
          | false => exact absurd ((equal_mem_iff hsw hwf).mpr ⟨n, hg, hb⟩) hno
        exact insertG_new_lt hsw hwf lvl hg hne
      · exact insertG_new_high hsw hwf lvl (by omega)
    rw [hnew]
    have hLle : prefLen lt it s.nodes ≤ s.nodes.length :=
      twLen_le (fun m : Node α => lt m.item it) s.nodes
    refine ⟨rfl, ?_, (itemsOf s).take (prefLen lt it s.nodes),
      (itemsOf s).drop (prefLen lt it s.nodes), ?_, ?_⟩
    · show (s.nodes.take (prefLen lt it s.nodes) ++ _ :: s.nodes.drop
          (prefLen lt it s.nodes)).length = _
      rw [List.length_append, List.length_take, List.length_cons, List.length_drop]
      omega
    · rw [List.take_append_drop]
    · show (s.nodes.take (prefLen lt it s.nodes) ++ _ :: s.nodes.drop
          (prefLen lt it s.nodes)).map (·.item) = _
      rw [List.map_append, List.map_cons, itemsOf, List.map_take, List.map_drop]

theorem claim_C5_witness :
    (insertG sTwo intLt 2 1).length = sTwo.length + 1 :=
  ((claim_C5_insert intLt_swo (by decide)).2 (by decide)).1

/-- C6: `randomLevel` always returns a level between 1 and `maxLevel`, equal
to one plus the number of initial consecutive successful draws capped at
`maxLevel`, and the canonical draw test
`float32(Uint32()&0xFFFF) < 0.25*0xFFFF` succeeds for exactly 16384 of the
65536 possible low-16-bit values — probability exactly 1/4. -/
theorem claim_C6_randomLevel :
    (∀ (ml : Nat) (u : Nat → Nat), 1 ≤ ml →
      1 ≤ randomLevel ml u ∧ randomLevel ml u ≤ ml ∧
      randomLevel ml u =
        1 + ((List.range (ml - 1)).takeWhile (fun j => rlDraw (u j))).length) ∧
    ((Finset.range 65536).filter (fun v => rlDraw v = true)).card = 16384 :=
  ⟨fun ml u h => ⟨(randomLevel_bounds ml u h).1, (randomLevel_bounds ml u h).2,
      randomLevel_run ml u h⟩,
    rlDraw_count⟩

theorem claim_C6_witness : 1 ≤ randomLevel 32 (fun _ => 0) :=
  (claim_C6_randomLevel.1 32 (fun _ => 0) (by decide)).1

/-- C7 counterexample: the freshly constructed list is reachable (empty
operation sequence), its level is 1, yet no real node participates in
lane 0 — so the claim that every lane below the current level holds a real
node fails on the empty list. -/
theorem claim_C7_counterexample :
    Reachable intLt sEmpty4 ∧ 0 < sEmpty4.level ∧
      ¬ ∃ n ∈ sEmpty4.nodes, 0 < n.lvl :=
  ⟨Reachable.base 4 sEmpty4 (by decide), by decide, by decide⟩

/-- C7 (amended): every state reachable by Insert/Delete from a fresh list
has `1 ≤ level ≤ maxLevel`; the header's forward pointer is nil on every lane
at or above `level`; when the list is non-empty, every lane below `level`
holds at least one real node; and when it is empty the level is exactly 1
(with every lane bare). -/
theorem claim_C7_level_invariant {α : Type} {lt : α → α → Bool} {s : SkipList α}
    (hsw : IsSWO lt) (hr : Reachable lt s) :
    1 ≤ s.level ∧ s.level ≤ s.maxLevel ∧
    (∀ i, s.level ≤ i → fwd s 0 i = none) ∧
    (s.nodes ≠ [] → ∀ i < s.level, ∃ n ∈ s.nodes, i < n.lvl) ∧
    (s.nodes = [] → s.level = 1) := by
  have hwf := reachable_wf hsw hr
  refine ⟨wf_level_pos hwf, wf_level_le hwf, ?_, ?_, wf_empty_level hwf⟩
  · intro i hi
    rw [fwd_none_iff]
    intro n hn
    rw [List.drop_zero] at hn
    have := wf_lvl_le hwf n hn
    omega
  · intro hne i hi
    obtain ⟨n, hn, hml⟩ := wf_top_occ hwf hne
    exact ⟨n, hn, by omega⟩

theorem claim_C7_witness :
    1 ≤ sEmpty4.level ∧ sEmpty4.level ≤ sEmpty4.maxLevel :=
  ⟨(claim_C7_level_invariant intLt_swo (Reachable.base 4 sEmpty4 (by decide))).1,
    (claim_C7_level_invariant intLt_swo (Reachable.base 4 sEmpty4 (by decide))).2.1⟩

/-- C8: `freeNode` returns `true` exactly when the pool is below its fixed
capacity, in which case the node is appended with its item reference and
every forward slot cleared; otherwise it returns `false` and the node is not
pooled.  `newNode` never fails: it pops the most recently freed node when the
pool is non-empty, resizing its forward array to exactly `lvl` and keeping
the backing capacity whenever it suffices, and otherwise allocates a fresh
node with a `lvl`-length forward array. -/
theorem claim_C8_freelist (α : Type) :
    (∀ (f : FreeList α) (n : PNode α),
      ((f.freeNode n).2 = true ↔ f.pool.length < f.cap) ∧
      (f.pool.length < f.cap → ∃ cn, (f.freeNode n).1.pool = f.pool ++ [cn] ∧
        cn.item = none ∧ cn.forward.length = n.forward.length ∧
        (∀ sl ∈ cn.forward, sl = none) ∧ cn.fcap = n.fcap) ∧
      (¬ f.pool.length < f.cap → f.freeNode n = (f, false))) ∧
    (∀ (f : FreeList α) (lvl : Nat),
      (f.newNode lvl).2.forward.length = lvl ∧
      (f.pool = [] → f.newNode lvl = (f, ⟨none, List.replicate lvl none, lvl⟩)) ∧
      (∀ n0, f.pool.getLast? = some n0 →
        (f.newNode lvl).1.pool = f.pool.dropLast ∧
        (f.newNode lvl).2.item = n0.item ∧
        (f.newNode lvl).2.fcap = if n0.fcap < lvl then lvl else n0.fcap)) := by
  constructor
  · intro f n
    refine ⟨?_, ?_, ?_⟩
    · rw [FreeList.freeNode]
      by_cases h : f.pool.length < f.cap
      · rw [if_pos h]
        simp [h]
      · rw [if_neg h]
        simp [h]
    · intro h
      rw [FreeList.freeNode, if_pos h]
      refine ⟨⟨none, List.replicate n.forward.length none, n.fcap⟩, rfl, rfl, ?_, ?_, rfl⟩
      · simp
      · intro sl hsl
        exact List.eq_of_mem_replicate hsl
    · intro h
      rw [FreeList.freeNode, if_neg h]
  · intro f lvl
    refine ⟨?_, ?_, ?_⟩
    · rw [FreeList.newNode]
      cases hlast : f.pool.getLast? with
      | none => simp
      | some n0 =>
        by_cases hcap : n0.fcap < lvl
        · simp [hcap]
        · simp [hcap]
          omega
    · intro hnil
      rw [FreeList.newNode, hnil]
      rfl
    · intro n0 hlast
      rw [FreeList.newNode, hlast]
      by_cases hcap : n0.fcap < lvl
      · simp [hcap]
      · simp [hcap]

theorem claim_C8_witness :
    ((⟨[], 2⟩ : FreeList Int).freeNode ⟨some 5, [none, none], 2⟩).2 = true :=
  ((claim_C8_freelist Int).1 ⟨[], 2⟩ ⟨some 5, [none, none], 2⟩).1.mpr (by decide)

/-- C9: `Insert` with a nil item panics unconditionally; `Insert` with a
present item always completes; and `NewWithLevel` panics exactly when the
requested max level lies outside `1..DefaultMaxLevel` (32), completing for
every level inside the range. -/
theorem claim_C9_panics (α : Type) :
    (∀ (s : SkipList α) (lt : α → α → Bool) (u : Nat → Nat),
      InsertOp s lt none u = none) ∧
    (∀ (s : SkipList α) (lt : α → α → Bool) (it : α) (u : Nat → Nat),
      (InsertOp s lt (some it) u).isSome = true) ∧
    (∀ ml : Int, (NewWithLevel α ml).isSome = true ↔ 1 ≤ ml ∧ ml ≤ 32) := by
  refine ⟨fun s lt u => rfl, fun s lt it u => rfl, fun ml => ?_⟩
  rw [NewWithLevel]
  by_cases h : ml < 1 ∨ (DefaultMaxLevel : Int) < ml
  · rw [if_pos h]
    simp only [Option.isSome_none, Bool.false_eq_true, false_iff]
    rw [DefaultMaxLevel] at h
    omega
  · rw [if_neg h]
    simp only [Option.isSome_some, true_iff]
    rw [DefaultMaxLevel] at h
    push_neg at h
    omega

/-- C10: an iterator whose current node is nil (`Valid` false) panics on
both `Next` and `Value` — neither method guards the invalid state; such
iterators arise from an empty list, from advancing past the last node, and
from `MoveTo` with a key greater than every stored item. -/
theorem claim_C10_iterator (α : Type) :
    (∀ (s : SkipList α) (it : IteratorM), it.Valid = false →
      NextOp s it = none ∧ ValueOp s it = none) ∧
    (∀ s : SkipList α, s.nodes = [] → (NewIterator s).Valid = false) ∧
    (∀ (s : SkipList α) (it : IteratorM), it.x = some s.nodes.length →
      NextOp s it = some ⟨none⟩) ∧
    (∀ (lt : α → α → Bool) (s : SkipList α) (it : IteratorM) (key : α),
      IsSWO lt → WF lt s → (∀ y ∈ itemsOf s, lt y key = true) →
      (MoveTo s lt it key).Valid = false) := by
  refine ⟨?_, ?_, ?_, ?_⟩
  · intro s it hv
    have hx : it.x = none := by
      cases hxx : it.x with
      | none => rfl
      | some p =>
        rw [IteratorM.Valid, hxx] at hv
        exact absurd hv (by simp)
    rw [NextOp, ValueOp, hx]
    exact ⟨rfl, rfl⟩
  · intro s hnil
    rw [IteratorM.Valid, NewIterator]
    have : fwd s 0 0 = none := by
      rw [fwd, hnil]
      rfl
    rw [this]
    rfl
  · intro s it hx
    rw [NextOp, hx]
    have hf : fwd s s.nodes.length 0 = none := by
      rw [fwd, List.drop_eq_nil_of_le (Nat.le_refl _)]
      rfl
    show some (⟨fwd s s.nodes.length 0⟩ : IteratorM) = some ⟨none⟩
    rw [hf]
  · intro lt s it key hsw hwf hall
    rw [IteratorM.Valid, MoveTo]
    rw [searchNode_none_all_lt hsw hwf hall]
    rfl

theorem claim_C10_witness :
    NextOp sEmpty4 ⟨none⟩ = none ∧ ValueOp sEmpty4 ⟨none⟩ = none :=
  (claim_C10_iterator Int).1 sEmpty4 ⟨none⟩ (by decide)

end SkipListVerif
